import Mathlib

/-!
Verification of the natural-language specification of
Holzhaus/pre-commit-hooks-java against a shallow embedding of its two
Python source files, src/pre_commit_hooks_java/unused_java_imports.py and
src/pre_commit_hooks_java/check_java_package_statements.py.

Files are modelled as lists of lines, each line a `List Char`.  Python's
regular-expression classes are Unicode-aware; all behaviour considered here
involves the ASCII range, over which we model the class in a pattern as the
ASCII characters it contains: a word character is an ASCII letter or digit
or an underscore, and a whitespace character is one of the six ASCII
whitespace characters matched by Python's regex whitespace class.
-/

/-- ASCII model of the regex whitespace class (also of Python str.strip). -/
def isSpaceChar (c : Char) : Bool :=
  c = ' ' || c = '\t' || c = '\n' || c = '\r' || c = '\x0b' || c = '\x0c'

/-- ASCII model of the regex word-character class. -/
def isWordChar (c : Char) : Bool :=
  c.isAlphanum || c = '_'

/-- Characters admissible inside the dotted-name group of both patterns. -/
def isNameChar (c : Char) : Bool :=
  isWordChar c || c = '.'

/-- Decide whether the first list is a literal prefix of the second. -/
def leadsWith : List Char → List Char → Bool
  | [], _ => true
  | _ :: _, [] => false
  | p :: ps, c :: cs => p = c && leadsWith ps cs

/-- Strip a literal prefix, returning the remainder on success. -/
def dropLit : List Char → List Char → Option (List Char)
  | [], s => some s
  | _ :: _, [] => none
  | p :: ps, c :: cs => if p = c then dropLit ps cs else none

/-- Decide whether a pattern occurs as a contiguous substring
(models Python's `in` on strings). -/
def hasSub (pat : List Char) : List Char → Bool
  | [] => leadsWith pat []
  | c :: cs => leadsWith pat (c :: cs) || hasSub pat cs

/-- Fuel-driven loop of removeAllSub: the fuel starts at the string's
length and every step strips at least one character, so the zero-fuel
clause is reached only on the empty string. -/
def removeAllGo (pat : List Char) : Nat → List Char → List Char
  | 0, s => s
  | _ + 1, [] => []
  | fuel + 1, c :: cs =>
    if leadsWith pat (c :: cs) then removeAllGo pat fuel (cs.drop (pat.length - 1))
    else c :: removeAllGo pat fuel cs

/-- Remove every left-to-right non-overlapping occurrence of a pattern
(models Python str.replace with an empty replacement; with the empty
pattern and an empty replacement the string is unchanged). -/
def removeAllSub (pat s : List Char) : List Char :=
  match pat with
  | [] => s
  | _ :: _ => removeAllGo pat s.length s

/-- Language of the dotted-name group of both regexes: one or more word
characters, a dot, then any word or dot characters ending in a word
character.  Equivalently: all characters admissible, first and last are
word characters, and at least one dot occurs. -/
def nameShape (nm : List Char) : Bool :=
  match nm with
  | [] => false
  | c :: _ =>
    isWordChar c &&
    (match nm.getLast? with
     | some d => isWordChar d
     | none => false) &&
    nm.contains '.' && nm.all isNameChar

/-- Match the tail of both regexes, a dotted name then optional whitespace
then a semicolon, at the front of a string.  Returns the name group and the
number of characters consumed through the semicolon.  With backtracking,
the regex can only bind the name group to the maximal run of admissible
characters, since the following character must be whitespace or the
semicolon. -/
def matchNameSemi (s : List Char) : Option (List Char × Nat) :=
  let nm := s.takeWhile isNameChar
  let rest := s.dropWhile isNameChar
  if nameShape nm then
    let ws := rest.takeWhile isSpaceChar
    match rest.dropWhile isSpaceChar with
    | ';' :: _ => some (nm, nm.length + ws.length + 1)
    | _ => none
  else none

/-- Attempt of the optional static group of IMPORT_PATTERN: succeeds only
when the literal word, at least one whitespace character, and then the
whole name-semicolon tail all match (the regex backtracks to the empty
group otherwise).  Returns the group's length and the tail's result. -/
def staticTry (s : List Char) : Option (Nat × List Char × Nat) :=
  match dropLit ("static".toList) s with
  | none => none
  | some s3 =>
    let ws2 := s3.takeWhile isSpaceChar
    if ws2 = [] then none
    else
      match matchNameSemi (s3.dropWhile isSpaceChar) with
      | none => none
      | some (nm, k) => some (6 + ws2.length, nm, k)

/-- Result of a successful anchored match of IMPORT_PATTERN: the static
flag, the name group, and the full matched text (group 0). -/
structure ImportRe where
  isStatic : Bool
  name : List Char
  group0 : List Char
deriving DecidableEq, Repr

/-- Model of IMPORT_PATTERN.match from unused_java_imports.py: the pattern
is anchored at position 0 (re.match) and requires the literal word, one or
more whitespace characters, the optional static group, the dotted name,
optional whitespace, and a semicolon; text after the semicolon is ignored. -/
def javaImportMatch (line : List Char) : Option ImportRe :=
  match dropLit ("import".toList) line with
  | none => none
  | some s1 =>
    let ws1 := s1.takeWhile isSpaceChar
    if ws1 = [] then none
    else
      let s2 := s1.dropWhile isSpaceChar
      match staticTry s2 with
      | some (sl, nm, k) => some ⟨true, nm, line.take (6 + ws1.length + sl + k)⟩
      | none =>
        match matchNameSemi s2 with
        | none => none
        | some (nm, k) => some ⟨false, nm, line.take (6 + ws1.length + k)⟩

/-- Model of PACKAGE_STATEMENT_PATTERN.match from
check_java_package_statements.py (anchored at position 0), returning the
name group of the first match. -/
def javaPackageMatch (line : List Char) : Option (List Char) :=
  match dropLit ("package".toList) line with
  | none => none
  | some s1 =>
    let ws1 := s1.takeWhile isSpaceChar
    if ws1 = [] then none
    else
      match matchNameSemi (s1.dropWhile isSpaceChar) with
      | none => none
      | some (nm, _) => some nm

/-- Removal reasons of unused_java_imports.py. -/
inductive RemovalReason where
  | DUPLICATE
  | UNUSED
deriving DecidableEq, Repr

/-- JavaImport of unused_java_imports.py: the name group, the line index,
the static flag, the removal reason, and the full matched text. -/
structure JavaImport where
  name : List Char
  lineno : Nat
  isStatic : Bool
  reason : RemovalReason
  group0 : List Char
deriving DecidableEq, Repr

instance : Inhabited JavaImport :=
  ⟨⟨[], 0, false, RemovalReason.UNUSED, []⟩⟩

/-- identifier property of JavaImport: the substring after the last dot of
the name (Python name.rpartition of a dot, component 2); the whole name
when no dot occurs. -/
def identifierOf (name : List Char) : List Char :=
  (name.reverse.takeWhile (fun c => if c = '.' then false else true)).reverse

/-- Comment-state transition shared by both analyzers: the state is set to
true when the line contains the opener, then set to false when it contains
the closer, and the resulting value both decides whether this line is
skipped and persists to the next line. -/
def nextInside (inside : Bool) (line : List Char) : Bool :=
  let i1 := if hasSub ("/*".toList) line then true else inside
  if hasSub ("*/".toList) line then false else i1

/-- Whole-word occurrence at the front of `rest`, where `prev` is the
character just before `rest` (none at the start of the line): models a
regex search for the escaped identifier between two word boundaries, for a
non-empty identifier consisting of word characters. -/
def occursAt (ident : List Char) (prev : Option Char) (rest : List Char) : Bool :=
  leadsWith ident rest &&
  (match prev with
   | none => true
   | some c => !isWordChar c) &&
  (match rest.drop ident.length with
   | [] => true
   | c :: _ => !isWordChar c)

def wordOccursFrom (ident : List Char) (prev : Option Char) : List Char → Bool
  | [] => occursAt ident prev []
  | c :: cs => occursAt ident prev (c :: cs) || wordOccursFrom ident (some c) cs

/-- Model of the re.search for a word-bounded identifier in a line. -/
def wordOccurs (ident : List Char) (line : List Char) : Bool :=
  wordOccursFrom ident none line

/-- The insertion-ordered dictionary of unused_java_imports.py, keyed by
identifier. -/
abbrev ImportTable := List (List Char × JavaImport)

/-- Dictionary lookup (keys are unique by construction). -/
def tblGet (t : ImportTable) (k : List Char) : Option JavaImport :=
  match t with
  | [] => none
  | e :: es => if e.1 = k then some e.2 else tblGet es k

/-- Scanner state of find_unnecessary_imports: the table, the comment
state, and the DUPLICATE findings yielded so far in order. -/
structure ScanState where
  table : ImportTable
  insideComment : Bool
  dups : List JavaImport
deriving DecidableEq, Repr

def initialScanState : ScanState := ⟨[], false, []⟩

/-- One loop iteration of find_unnecessary_imports on the line with index
`n`: update the comment state and skip if inside; otherwise try the import
pattern, yielding a DUPLICATE when the identifier is already tracked and
inserting the import otherwise; on non-import lines delete every tracked
identifier that occurs in the line as a whole word. -/
def scanLine (st : ScanState) (n : Nat) (line : List Char) : ScanState :=
  let i2 := nextInside st.insideComment line
  if i2 then { st with insideComment := i2 }
  else
    match javaImportMatch line with
    | some m =>
      let ident := identifierOf m.name
      match tblGet st.table ident with
      | some _ =>
        { st with insideComment := i2,
                  dups := st.dups ++ [⟨m.name, n, m.isStatic, RemovalReason.DUPLICATE, m.group0⟩] }
      | none =>
        { st with insideComment := i2,
                  table := st.table ++ [(ident, ⟨m.name, n, m.isStatic, RemovalReason.UNUSED, m.group0⟩)] }
    | none =>
      { st with insideComment := i2,
                table := st.table.filter (fun e => !wordOccurs e.1 line) }

/-- Fold of scanLine over the lines starting at index `n`. -/
def scanLines (st : ScanState) (n : Nat) : List (List Char) → ScanState
  | [] => st
  | l :: ls => scanLines (scanLine st n l) (n + 1) ls

/-- find_unnecessary_imports of unused_java_imports.py as a function of the
file's lines: the generator yields every DUPLICATE at detection time and
then the values remaining in the table, in insertion order, as UNUSED. -/
def find_unnecessary_imports (lines : List (List Char)) : List JavaImport :=
  let st := scanLines initialScanState 0 lines
  st.dups ++ st.table.map (fun e => e.2)

/-- Loop of find_java_package_statement: the same comment filter, returning
the first visible line's package match together with its line index. -/
def findPkgFrom (inside : Bool) (n : Nat) : List (List Char) → Option (List Char × Nat)
  | [] => none
  | l :: ls =>
    let i2 := nextInside inside l
    if i2 then findPkgFrom i2 (n + 1) ls
    else
      match javaPackageMatch l with
      | some nm => some (nm, n)
      | none => findPkgFrom i2 (n + 1) ls

/-- find_java_package_statement of check_java_package_statements.py as a
function of the file's lines. -/
def find_java_package_statement (lines : List (List Char)) : Option (List Char × Nat) :=
  findPkgFrom false 0 lines

/-- Python str.split on a dot: components of a dotted name, preserving
empty pieces. -/
def splitDot : List Char → List (List Char)
  | [] => [[]]
  | c :: cs =>
    if c = '.' then [] :: splitDot cs
    else
      match splitDot cs with
      | [] => [[c]]
      | p :: ps => (c :: p) :: ps

/-- Python str.join with a dot separator. -/
def joinDot : List (List Char) → List Char
  | [] => []
  | [x] => x
  | x :: y :: ys => x ++ '.' :: joinDot (y :: ys)

/-- Outcome of the per-file check in main of
check_java_package_statements.py. -/
inductive PkgCheck where
  | missingStatement
  | mismatch (expected : List Char) (actual : List Char) (lineno : Nat)
  | ok
deriving DecidableEq, Repr

/-- Per-file logic of main in check_java_package_statements.py: find the
package statement; compare its dotted components against the directory
path components, right-truncated to the component count when longer; a
differing sequence is a mismatch naming the expected dotted path and the
actual package name. -/
def checkJavaPackagePath (lines : List (List Char)) (parentParts : List (List Char)) : PkgCheck :=
  match find_java_package_statement lines with
  | none => PkgCheck.missingStatement
  | some (nm, ln) =>
    let pkg := splitDot nm
    let parts :=
      if parentParts.length > pkg.length then
        parentParts.drop (parentParts.length - pkg.length)
      else parentParts
    if pkg = parts then PkgCheck.ok
    else PkgCheck.mismatch (joinDot parts) nm ln

/-- Stable insertion of an import into a list sorted by line index, after
all entries with a smaller or equal index. -/
def insertByLineno (j : JavaImport) : List JavaImport → List JavaImport
  | [] => [j]
  | x :: xs => if j.lineno < x.lineno then j :: x :: xs else x :: insertByLineno j xs

/-- Python sorted with the line index as key (stable). -/
def sortByLineno (l : List JavaImport) : List JavaImport :=
  l.foldl (fun acc j => insertByLineno j acc) []

/-- itertools.groupby with the line index as key: group consecutive runs of
equal keys. -/
def groupByLineno : List JavaImport → List (Nat × List JavaImport)
  | [] => []
  | j :: js =>
    match groupByLineno js with
    | [] => [(j.lineno, [j])]
    | (k, g) :: rest =>
      if j.lineno = k then (k, j :: g) :: rest
      else (j.lineno, [j]) :: (k, g) :: rest

/-- Dictionary lookup in the grouped findings (dict built from the pairs
produced by groupby; keys are unique since the input is sorted). -/
def lookupLineno (t : List (Nat × List JavaImport)) (m : Nat) : Option (List JavaImport) :=
  match t with
  | [] => none
  | (k, g) :: rest => if k = m then some g else lookupLineno rest m

/-- Loop of lines_with_unnecessary_imports_removed over the lines starting
at index `n`: look up the findings grouped on this line, remove each
finding's matched text from the line, and keep the line when it had no
findings or still holds a non-whitespace character. -/
def rewriteGo (tbl : List (Nat × List JavaImport)) (n : Nat) : List (List Char) → List (List Char)
  | [] => []
  | l :: ls =>
    let grp := (lookupLineno tbl n).getD []
    let nl := grp.foldl (fun acc j => removeAllSub j.group0 acc) l
    (if grp.isEmpty || !(nl.all isSpaceChar) then [nl] else []) ++ rewriteGo tbl (n + 1) ls

/-- lines_with_unnecessary_imports_removed of unused_java_imports.py as a
function of the file's lines and the findings list: group the findings by
line index (sorted stably, then grouped) and rewrite each line. -/
def lines_with_unnecessary_imports_removed (lines : List (List Char)) (unnecessary_imports : List JavaImport) : List (List Char) :=
  rewriteGo (groupByLineno (sortByLineno unnecessary_imports)) 0 lines

/-- Specification-shaped rewriter used to characterize the grouping: at
line index `n` the findings are exactly those whose line index equals `n`,
in input order. -/
def rewriteFrom (imps : List JavaImport) (n : Nat) : List (List Char) → List (List Char)
  | [] => []
  | l :: ls =>
    let grp := imps.filter (fun j => j.lineno = n)
    let nl := grp.foldl (fun acc j => removeAllSub j.group0 acc) l
    (if grp.isEmpty || !(nl.all isSpaceChar) then [nl] else []) ++ rewriteFrom imps (n + 1) ls

/-! ### Lemmas about the text helpers -/

theorem leadsWith_append (p t : List Char) : leadsWith p (p ++ t) = true := by
  induction p with
  | nil => rfl
  | cons a ps ih => simp [leadsWith, ih]

theorem eq_append_of_leadsWith : ∀ (p s : List Char), leadsWith p s = true → s = p ++ s.drop p.length := by
  intro p
  induction p with
  | nil => intro s _; simp
  | cons a ps ih =>
    intro s h
    cases s with
    | nil => simp [leadsWith] at h
    | cons c cs =>
      simp only [leadsWith, Bool.and_eq_true, decide_eq_true_eq] at h
      obtain ⟨h1, h2⟩ := h
      subst h1
      simpa using ih cs h2

theorem dropLit_some : ∀ (p s r : List Char), dropLit p s = some r → s = p ++ r := by
  intro p
  induction p with
  | nil => intro s r h; simp [dropLit] at h; simp [h]
  | cons a ps ih =>
    intro s r h
    cases s with
    | nil => simp [dropLit] at h
    | cons c cs =>
      by_cases hac : a = c
      · subst hac
        simp [dropLit] at h
        simpa using ih cs r h
      · simp [dropLit, hac] at h

theorem dropLit_append (p r : List Char) : dropLit p (p ++ r) = some r := by
  induction p with
  | nil => rfl
  | cons a ps ih => simp [dropLit, ih]

theorem takeWhile_split (p : Char → Bool) : ∀ (xs ys : List Char), (∀ c ∈ xs, p c = true) →
    (∀ c, ys.head? = some c → p c = false) →
    (xs ++ ys).takeWhile p = xs ∧ (xs ++ ys).dropWhile p = ys := by
  intro xs
  induction xs with
  | nil =>
    intro ys _ h2
    cases ys with
    | nil => simp
    | cons y ys' =>
      have := h2 y rfl
      simp [List.takeWhile, List.dropWhile, this]
  | cons x xs' ih =>
    intro ys h1 h2
    have hx : p x = true := h1 x (by simp)
    have := ih ys (fun c hc => h1 c (by simp [hc])) h2
    simp [List.takeWhile, List.dropWhile, hx, this.1, this.2]

theorem mem_of_hasSub : ∀ (a : Char) (ps l : List Char), hasSub (a :: ps) l = true → a ∈ l := by
  intro a ps l
  induction l with
  | nil => simp [hasSub, leadsWith]
  | cons c cs ih =>
    intro h
    simp only [hasSub, Bool.or_eq_true] at h
    rcases h with h | h
    · simp only [leadsWith, Bool.and_eq_true, decide_eq_true_eq] at h
      simp [h.1]
    · simp [ih h]

theorem hasSub_eq_false (a : Char) (ps l : List Char) (h : a ∉ l) : hasSub (a :: ps) l = false := by
  cases hh : hasSub (a :: ps) l with
  | false => rfl
  | true => exact absurd (mem_of_hasSub a ps l hh) h

theorem nextInside_eq (i : Bool) (l : List Char) :
    nextInside i l = ((hasSub ("/*".toList) l || i) && !hasSub ("*/".toList) l) := by
  unfold nextInside
  cases h1 : hasSub ("/*".toList) l <;> cases h2 : hasSub ("*/".toList) l <;> simp

theorem nextInside_of_no_mark (i : Bool) (l : List Char) (h1 : '/' ∉ l) (h2 : '*' ∉ l) :
    nextInside i l = i := by
  unfold nextInside
  rw [show ("/*".toList) = '/' :: ['*'] from rfl, show ("*/".toList) = '*' :: ['/'] from rfl]
  rw [hasSub_eq_false '/' ['*'] l h1, hasSub_eq_false '*' ['/'] l h2]
  simp

theorem mem_of_mem_removeAllGo : ∀ (fuel : Nat) (pat s : List Char) (c : Char),
    c ∈ removeAllGo pat fuel s → c ∈ s := by
  intro fuel
  induction fuel with
  | zero => intro pat s c h; exact h
  | succ f ih =>
    intro pat s c h
    cases s with
    | nil => simp [removeAllGo] at h
    | cons c' cs =>
      rw [removeAllGo] at h
      by_cases hlw : leadsWith pat (c' :: cs)
      · rw [if_pos hlw] at h
        have h2 := ih pat _ c h
        have h3 : c ∈ cs := List.mem_of_mem_drop h2
        simp [h3]
      · rw [if_neg hlw] at h
        rcases List.mem_cons.mp h with h | h
        · simp [h]
        · simp [ih pat cs c h]

theorem mem_of_mem_removeAllSub : ∀ (pat s : List Char) (c : Char),
    c ∈ removeAllSub pat s → c ∈ s := by
  intro pat s c h
  cases pat with
  | nil => simpa [removeAllSub] using h
  | cons p ps => exact mem_of_mem_removeAllGo s.length (p :: ps) s c h

/-! ### Character-class facts -/

theorem isSpaceChar_spec (c : Char) (h : isSpaceChar c = true) :
    c = ' ' ∨ c = '\t' ∨ c = '\n' ∨ c = '\r' ∨ c = '\x0b' ∨ c = '\x0c' := by
  simpa [isSpaceChar, or_assoc] using h

theorem isWordChar_eq_false_of_space (c : Char) (h : isSpaceChar c = true) : isWordChar c = false := by
  rcases isSpaceChar_spec c h with h | h | h | h | h | h <;> subst h <;> decide

theorem isNameChar_eq_false_of_space (c : Char) (h : isSpaceChar c = true) : isNameChar c = false := by
  rcases isSpaceChar_spec c h with h | h | h | h | h | h <;> subst h <;> decide

theorem isSpaceChar_eq_false_of_word (c : Char) (h : isWordChar c = true) : isSpaceChar c = false := by
  cases hs : isSpaceChar c with
  | false => rfl
  | true => rw [isWordChar_eq_false_of_space c hs] at h; exact absurd h (by simp)

theorem isSpaceChar_eq_false_of_name (c : Char) (h : isNameChar c = true) : isSpaceChar c = false := by
  have h2 : isWordChar c = true ∨ c = '.' := by simpa [isNameChar] using h
  rcases h2 with hw | hd
  · exact isSpaceChar_eq_false_of_word c hw
  · subst hd; decide

/-! ### Facts about the name group -/

theorem nameShape_spec (nm : List Char) (h : nameShape nm = true) :
    (∀ c ∈ nm, isNameChar c = true) ∧ (∃ c cs, nm = c :: cs ∧ isWordChar c = true) ∧
    nm.contains '.' = true := by
  cases nm with
  | nil => simp [nameShape] at h
  | cons c cs =>
    simp only [nameShape, Bool.and_eq_true] at h
    refine ⟨?_, ⟨c, cs, rfl, h.1.1.1⟩, h.1.2⟩
    intro d hd
    exact List.all_eq_true.mp h.2 d hd

theorem matchNameSemi_eq (nm ws2 tail : List Char) (hnm : nameShape nm = true)
    (hws2 : ∀ c ∈ ws2, isSpaceChar c = true) :
    matchNameSemi (nm ++ ws2 ++ ';' :: tail) = some (nm, nm.length + ws2.length + 1) := by
  obtain ⟨hall, ⟨c0, cs0, hcons, hw0⟩, _⟩ := nameShape_spec nm hnm
  have hsplit1 : (nm ++ (ws2 ++ ';' :: tail)).takeWhile isNameChar = nm ∧
      (nm ++ (ws2 ++ ';' :: tail)).dropWhile isNameChar = ws2 ++ ';' :: tail := by
    apply takeWhile_split isNameChar nm (ws2 ++ ';' :: tail) hall
    intro d hd
    cases ws2 with
    | nil =>
      simp at hd
      subst hd; decide
    | cons w ws' =>
      simp at hd
      subst hd
      exact isNameChar_eq_false_of_space w (hws2 w (by simp))
  have hsplit2 : (ws2 ++ ';' :: tail).takeWhile isSpaceChar = ws2 ∧
      (ws2 ++ ';' :: tail).dropWhile isSpaceChar = ';' :: tail := by
    apply takeWhile_split isSpaceChar ws2 (';' :: tail) hws2
    intro d hd
    simp at hd
    subst hd; decide
  simp only [matchNameSemi, List.append_assoc, hsplit1.1, hsplit1.2, hsplit2.1, hsplit2.2,
    if_pos hnm]

/-! ### The optional static group -/

theorem staticTry_eq_none (nm ws2 tail : List Char) (hnm : nameShape nm = true)
    (hws2 : ∀ c ∈ ws2, isSpaceChar c = true) :
    staticTry (nm ++ ws2 ++ ';' :: tail) = none := by
  obtain ⟨hall, ⟨c0, cs0, hcons, hw0⟩, hdot⟩ := nameShape_spec nm hnm
  have hstat : ∀ c ∈ "static".toList, isWordChar c = true := by decide
  have hslen : ("static".toList).length = 6 := rfl
  unfold staticTry
  cases hdl : dropLit ("static".toList) (nm ++ ws2 ++ ';' :: tail) with
  | none => rfl
  | some s3 =>
    have heq : nm ++ (ws2 ++ ';' :: tail) = "static".toList ++ s3 := by
      have := dropLit_some _ _ _ hdl
      rw [List.append_assoc] at this
      exact this
    rcases Nat.lt_trichotomy nm.length 6 with hlt | hle | hgt
    · exfalso
      have hdr : ws2 ++ ';' :: tail =
          List.drop nm.length ("static".toList) ++ s3 := by
        have h1 : (nm ++ (ws2 ++ ';' :: tail)).drop nm.length = ws2 ++ ';' :: tail :=
          List.drop_left nm _
        rw [heq, List.drop_append_of_le_length (by omega)] at h1
        exact h1.symm
      have hne : List.drop nm.length ("static".toList) ≠ [] := by
        intro hnil
        have := congrArg List.length hnil
        simp at this
        omega
      cases htc : List.drop nm.length ("static".toList) with
      | nil => exact hne htc
      | cons th tt =>
        have hthw : isWordChar th = true :=
          hstat th (List.mem_of_mem_drop (by rw [htc]; simp))
        rw [htc] at hdr
        cases ws2 with
        | nil =>
          simp at hdr
          rw [← hdr.1] at hthw
          exact absurd hthw (by decide)
        | cons w ws' =>
          simp at hdr
          have hw : isSpaceChar w = true := hws2 w (by simp)
          rw [← hdr.1] at hthw
          rw [isWordChar_eq_false_of_space w hw] at hthw
          exact absurd hthw (by simp)
    · exfalso
      have hinj := List.append_inj heq (by omega)
      rw [hinj.1] at hdot
      exact absurd hdot (by decide)
    · have hs3 : s3 = List.drop 6 nm ++ (ws2 ++ ';' :: tail) := by
        have h1 : ("static".toList ++ s3).drop 6 = s3 := by
          rw [← hslen]
          exact List.drop_left _ _
        rw [← heq, List.drop_append_of_le_length (by omega)] at h1
        exact h1.symm
      have hne : List.drop 6 nm ≠ [] := by
        intro hnil
        have := congrArg List.length hnil
        simp at this
        omega
      cases htc : List.drop 6 nm with
      | nil => exact absurd htc hne
      | cons d dt =>
        have hdn : isNameChar d = true :=
          hall d (List.mem_of_mem_drop (by rw [htc]; simp))
        rw [htc] at hs3
        rw [hs3]
        have htw : List.takeWhile isSpaceChar (d :: (dt ++ (ws2 ++ ';' :: tail))) = [] := by
          simp [List.takeWhile, isSpaceChar_eq_false_of_name d hdn]
        simp only [List.cons_append, htw]
        simp

theorem staticTry_eq_some (wss nm ws2 tail : List Char) (hwssne : wss ≠ [])
    (hwss : ∀ c ∈ wss, isSpaceChar c = true) (hnm : nameShape nm = true)
    (hws2 : ∀ c ∈ ws2, isSpaceChar c = true) :
    staticTry ("static".toList ++ wss ++ nm ++ ws2 ++ ';' :: tail) =
      some (6 + wss.length, nm, nm.length + ws2.length + 1) := by
  obtain ⟨hall, ⟨c0, cs0, hcons, hw0⟩, _⟩ := nameShape_spec nm hnm
  have hsplit : (wss ++ (nm ++ (ws2 ++ ';' :: tail))).takeWhile isSpaceChar = wss ∧
      (wss ++ (nm ++ (ws2 ++ ';' :: tail))).dropWhile isSpaceChar = nm ++ (ws2 ++ ';' :: tail) := by
    apply takeWhile_split isSpaceChar wss _ hwss
    intro d hd
    rw [hcons] at hd
    simp at hd
    subst hd
    exact isSpaceChar_eq_false_of_word c0 hw0
  unfold staticTry
  rw [show ("static".toList ++ wss ++ nm ++ ws2 ++ ';' :: tail) =
      ("static".toList ++ (wss ++ (nm ++ (ws2 ++ ';' :: tail)))) by simp,
    dropLit_append]
  simp only [hsplit.1, hsplit.2, if_neg hwssne]
  rw [show nm ++ (ws2 ++ ';' :: tail) = nm ++ ws2 ++ ';' :: tail by simp,
    matchNameSemi_eq nm ws2 tail hnm hws2]

theorem javaImportMatch_eq_nostatic (ws1 nm ws2 tail : List Char)
    (hws1ne : ws1 ≠ []) (hws1 : ∀ c ∈ ws1, isSpaceChar c = true)
    (hnm : nameShape nm = true) (hws2 : ∀ c ∈ ws2, isSpaceChar c = true) :
    javaImportMatch ("import".toList ++ ws1 ++ nm ++ ws2 ++ ';' :: tail) =
      some ⟨false, nm, "import".toList ++ ws1 ++ nm ++ ws2 ++ [';']⟩ := by
  obtain ⟨hall, ⟨c0, cs0, hcons, hw0⟩, _⟩ := nameShape_spec nm hnm
  have hsplit : (ws1 ++ (nm ++ (ws2 ++ ';' :: tail))).takeWhile isSpaceChar = ws1 ∧
      (ws1 ++ (nm ++ (ws2 ++ ';' :: tail))).dropWhile isSpaceChar = nm ++ (ws2 ++ ';' :: tail) := by
    apply takeWhile_split isSpaceChar ws1 _ hws1
    intro d hd
    rw [hcons] at hd
    simp at hd
    subst hd
    exact isSpaceChar_eq_false_of_word c0 hw0
  unfold javaImportMatch
  rw [show ("import".toList ++ ws1 ++ nm ++ ws2 ++ ';' :: tail) =
      ("import".toList ++ (ws1 ++ (nm ++ (ws2 ++ ';' :: tail)))) by simp,
    dropLit_append]
  simp only [hsplit.1, hsplit.2, if_neg hws1ne]
  rw [show nm ++ (ws2 ++ ';' :: tail) = nm ++ ws2 ++ ';' :: tail by simp,
    staticTry_eq_none nm ws2 tail hnm hws2,
    matchNameSemi_eq nm ws2 tail hnm hws2]
  have hlen : 6 + ws1.length + (nm.length + ws2.length + 1) =
      ("import".toList ++ ws1 ++ nm ++ ws2 ++ [';']).length := by
    simp [List.length_append]
    omega
  dsimp only
  rw [show ("import".toList ++ (ws1 ++ (nm ++ ws2 ++ ';' :: tail))) =
      (("import".toList ++ ws1 ++ nm ++ ws2 ++ [';']) ++ tail) by simp, hlen,
    List.take_left]

theorem javaImportMatch_eq_static (ws1 wss nm ws2 tail : List Char)
    (hws1ne : ws1 ≠ []) (hws1 : ∀ c ∈ ws1, isSpaceChar c = true)
    (hwssne : wss ≠ []) (hwss : ∀ c ∈ wss, isSpaceChar c = true)
    (hnm : nameShape nm = true) (hws2 : ∀ c ∈ ws2, isSpaceChar c = true) :
    javaImportMatch ("import".toList ++ ws1 ++ "static".toList ++ wss ++ nm ++ ws2 ++ ';' :: tail) =
      some ⟨true, nm, "import".toList ++ ws1 ++ "static".toList ++ wss ++ nm ++ ws2 ++ [';']⟩ := by
  obtain ⟨hall, ⟨c0, cs0, hcons, hw0⟩, _⟩ := nameShape_spec nm hnm
  have hsplit : (ws1 ++ ("static".toList ++ (wss ++ (nm ++ (ws2 ++ ';' :: tail))))).takeWhile isSpaceChar = ws1 ∧
      (ws1 ++ ("static".toList ++ (wss ++ (nm ++ (ws2 ++ ';' :: tail))))).dropWhile isSpaceChar =
        "static".toList ++ (wss ++ (nm ++ (ws2 ++ ';' :: tail))) := by
    apply takeWhile_split isSpaceChar ws1 _ hws1
    intro d hd
    simp at hd
    subst hd
    decide
  unfold javaImportMatch
  rw [show ("import".toList ++ ws1 ++ "static".toList ++ wss ++ nm ++ ws2 ++ ';' :: tail) =
      ("import".toList ++ (ws1 ++ ("static".toList ++ (wss ++ (nm ++ (ws2 ++ ';' :: tail)))))) by simp,
    dropLit_append]
  simp only [hsplit.1, hsplit.2, if_neg hws1ne]
  rw [show ("static".toList ++ (wss ++ (nm ++ (ws2 ++ ';' :: tail)))) =
      ("static".toList ++ wss ++ nm ++ ws2 ++ ';' :: tail) by simp,
    staticTry_eq_some wss nm ws2 tail hwssne hwss hnm hws2]
  have hlen : 6 + ws1.length + (6 + wss.length) + (nm.length + ws2.length + 1) =
      ("import".toList ++ ws1 ++ "static".toList ++ wss ++ nm ++ ws2 ++ [';']).length := by
    simp [List.length_append]
    omega
  dsimp only
  rw [show ("import".toList ++ (ws1 ++ ("static".toList ++ wss ++ nm ++ ws2 ++ ';' :: tail))) =
      (("import".toList ++ ws1 ++ "static".toList ++ wss ++ nm ++ ws2 ++ [';']) ++ tail) by simp, hlen,
    List.take_left]

theorem javaPackageMatch_eq (ws1 nm ws2 tail : List Char)
    (hws1ne : ws1 ≠ []) (hws1 : ∀ c ∈ ws1, isSpaceChar c = true)
    (hnm : nameShape nm = true) (hws2 : ∀ c ∈ ws2, isSpaceChar c = true) :
    javaPackageMatch ("package".toList ++ ws1 ++ nm ++ ws2 ++ ';' :: tail) = some nm := by
  obtain ⟨hall, ⟨c0, cs0, hcons, hw0⟩, _⟩ := nameShape_spec nm hnm
  have hsplit : (ws1 ++ (nm ++ (ws2 ++ ';' :: tail))).takeWhile isSpaceChar = ws1 ∧
      (ws1 ++ (nm ++ (ws2 ++ ';' :: tail))).dropWhile isSpaceChar = nm ++ (ws2 ++ ';' :: tail) := by
    apply takeWhile_split isSpaceChar ws1 _ hws1
    intro d hd
    rw [hcons] at hd
    simp at hd
    subst hd
    exact isSpaceChar_eq_false_of_word c0 hw0
  unfold javaPackageMatch
  rw [show ("package".toList ++ ws1 ++ nm ++ ws2 ++ ';' :: tail) =
      ("package".toList ++ (ws1 ++ (nm ++ (ws2 ++ ';' :: tail)))) by simp,
    dropLit_append]
  simp only [hsplit.1, hsplit.2, if_neg hws1ne]
  rw [show nm ++ (ws2 ++ ';' :: tail) = nm ++ ws2 ++ ';' :: tail by simp,
    matchNameSemi_eq nm ws2 tail hnm hws2]

/-! ### Scanner step lemmas -/

theorem scanLine_skip (st : ScanState) (n : Nat) (l : List Char)
    (h : nextInside st.insideComment l = true) :
    scanLine st n l = ⟨st.table, true, st.dups⟩ := by
  simp [scanLine, h]

theorem scanLine_dup (st : ScanState) (n : Nat) (l : List Char) (m : ImportRe) (j : JavaImport)
    (hv : nextInside st.insideComment l = false)
    (hm : javaImportMatch l = some m)
    (hg : tblGet st.table (identifierOf m.name) = some j) :
    scanLine st n l = ⟨st.table, false,
      st.dups ++ [⟨m.name, n, m.isStatic, RemovalReason.DUPLICATE, m.group0⟩]⟩ := by
  simp [scanLine, hv, hm, hg]

theorem scanLine_ins (st : ScanState) (n : Nat) (l : List Char) (m : ImportRe)
    (hv : nextInside st.insideComment l = false)
    (hm : javaImportMatch l = some m)
    (hg : tblGet st.table (identifierOf m.name) = none) :
    scanLine st n l = ⟨st.table ++
      [(identifierOf m.name, ⟨m.name, n, m.isStatic, RemovalReason.UNUSED, m.group0⟩)],
      false, st.dups⟩ := by
  simp [scanLine, hv, hm, hg]

theorem scanLine_pru (st : ScanState) (n : Nat) (l : List Char)
    (hv : nextInside st.insideComment l = false)
    (hm : javaImportMatch l = none) :
    scanLine st n l = ⟨st.table.filter (fun e => !wordOccurs e.1 l), false, st.dups⟩ := by
  simp [scanLine, hv, hm]

theorem scanLines_append (st : ScanState) (n : Nat) (xs ys : List (List Char)) :
    scanLines st n (xs ++ ys) = scanLines (scanLines st n xs) (n + xs.length) ys := by
  induction xs generalizing st n with
  | nil => simp [scanLines]
  | cons x xs' ih =>
    show scanLines (scanLine st n x) (n + 1) (xs' ++ ys) =
      scanLines (scanLines (scanLine st n x) (n + 1) xs') (n + (x :: xs').length) ys
    have hl : n + 1 + xs'.length = n + (x :: xs').length := by simp; omega
    rw [ih, hl]

theorem tblGet_eq_none_iff (t : ImportTable) (k : List Char) :
    tblGet t k = none ↔ k ∉ t.map (fun e => e.1) := by
  induction t with
  | nil => simp [tblGet]
  | cons e es ih =>
    by_cases he : e.1 = k
    · simp [tblGet, he]
    · simp [tblGet, he, ih, Ne.symm he]

theorem scanLine_table_cases (st : ScanState) (n : Nat) (l : List Char) :
    (scanLine st n l).table = st.table ∨
    (∃ m : ImportRe, javaImportMatch l = some m ∧
      tblGet st.table (identifierOf m.name) = none ∧
      (scanLine st n l).table = st.table ++
        [(identifierOf m.name, ⟨m.name, n, m.isStatic, RemovalReason.UNUSED, m.group0⟩)]) ∨
    (scanLine st n l).table = st.table.filter (fun e => !wordOccurs e.1 l) := by
  cases hv : nextInside st.insideComment l with
  | true => left; rw [scanLine_skip st n l hv]
  | false =>
    cases hm : javaImportMatch l with
    | none => right; right; rw [scanLine_pru st n l hv hm]
    | some m =>
      cases hg : tblGet st.table (identifierOf m.name) with
      | some j => left; rw [scanLine_dup st n l m j hv hm hg]
      | none =>
        right; left
        exact ⟨m, rfl, hg, by rw [scanLine_ins st n l m hv hm hg]⟩

theorem scanLine_dups_cases (st : ScanState) (n : Nat) (l : List Char) :
    (scanLine st n l).dups = st.dups ∨
    (∃ m : ImportRe, javaImportMatch l = some m ∧
      (scanLine st n l).dups = st.dups ++
        [⟨m.name, n, m.isStatic, RemovalReason.DUPLICATE, m.group0⟩]) := by
  cases hv : nextInside st.insideComment l with
  | true => left; rw [scanLine_skip st n l hv]
  | false =>
    cases hm : javaImportMatch l with
    | none => left; rw [scanLine_pru st n l hv hm]
    | some m =>
      cases hg : tblGet st.table (identifierOf m.name) with
      | some j => right; exact ⟨m, rfl, by rw [scanLine_dup st n l m j hv hm hg]⟩
      | none => left; rw [scanLine_ins st n l m hv hm hg]

/-- Every table entry after scanning either was present before or was
inserted at one of the scanned line indices. -/
theorem table_mem_of_scanLines (ls : List (List Char)) (st : ScanState) (n : Nat) :
    ∀ e ∈ (scanLines st n ls).table, e ∈ st.table ∨ (n ≤ e.2.lineno ∧
      e.1 = identifierOf e.2.name ∧ e.2.reason = RemovalReason.UNUSED) := by
  induction ls generalizing st n with
  | nil => intro e he; exact Or.inl he
  | cons l ls' ih =>
    intro e he
    simp only [scanLines] at he
    rcases ih (scanLine st n l) (n + 1) e he with h | h
    · rcases scanLine_table_cases st n l with hc | ⟨m, _, _, hc⟩ | hc
      · rw [hc] at h; exact Or.inl h
      · rw [hc] at h
        rcases List.mem_append.mp h with h | h
        · exact Or.inl h
        · simp at h
          subst h
          right
          exact ⟨by simp, rfl, rfl⟩
      · rw [hc] at h
        exact Or.inl (List.mem_filter.mp h).1
    · right
      exact ⟨by omega, h.2⟩

/-- Every duplicate finding after scanning either was yielded before or was
yielded at one of the scanned line indices, with the DUPLICATE reason. -/
theorem dups_mem_of_scanLines (ls : List (List Char)) (st : ScanState) (n : Nat) :
    ∀ d ∈ (scanLines st n ls).dups, d ∈ st.dups ∨ (n ≤ d.lineno ∧
      d.reason = RemovalReason.DUPLICATE) := by
  induction ls generalizing st n with
  | nil => intro d hd; exact Or.inl hd
  | cons l ls' ih =>
    intro d hd
    simp only [scanLines] at hd
    rcases ih (scanLine st n l) (n + 1) d hd with h | h
    · rcases scanLine_dups_cases st n l with hc | ⟨m, _, hc⟩
      · rw [hc] at h; exact Or.inl h
      · rw [hc] at h
        rcases List.mem_append.mp h with h | h
        · exact Or.inl h
        · simp at h
          subst h
          right
          exact ⟨by simp, rfl⟩
    · right
      exact ⟨by omega, h.2⟩

/-! ### Table well-formedness through the scan -/

/-- Well-formedness of the table: unique keys, each key is its value's
identifier, and each tracked value carries the UNUSED reason. -/
def WFtable (t : ImportTable) : Prop :=
  (t.map (fun e => e.1)).Nodup ∧
  ∀ e ∈ t, e.1 = identifierOf e.2.name ∧ e.2.reason = RemovalReason.UNUSED

theorem WFtable_scanLine (st : ScanState) (n : Nat) (l : List Char)
    (h : WFtable st.table) : WFtable (scanLine st n l).table := by
  rcases scanLine_table_cases st n l with hc | ⟨m, hm, hg, hc⟩ | hc
  · rw [hc]; exact h
  · rw [hc]
    constructor
    · rw [List.map_append, List.nodup_append]
      refine ⟨h.1, by simp, ?_⟩
      intro a ha hb
      simp at hb
      subst hb
      exact (tblGet_eq_none_iff _ _ |>.mp hg) ha
    · intro e he
      rcases List.mem_append.mp he with he | he
      · exact h.2 e he
      · simp at he
        subst he
        exact ⟨rfl, rfl⟩
  · rw [hc]
    constructor
    · exact List.Nodup.sublist (List.Sublist.map _ (List.filter_sublist _)) h.1
    · intro e he
      exact h.2 e (List.mem_filter.mp he).1

theorem WFtable_scanLines (ls : List (List Char)) (st : ScanState) (n : Nat)
    (h : WFtable st.table) : WFtable (scanLines st n ls).table := by
  induction ls generalizing st n with
  | nil => exact h
  | cons l ls' ih => exact ih (scanLine st n l) (n + 1) (WFtable_scanLine st n l h)

/-! ### The duplicate stream is append-only and does not influence the scan -/

theorem scanLine_dups_shift (t : ImportTable) (i : Bool) (d : List JavaImport)
    (n : Nat) (l : List Char) :
    scanLine ⟨t, i, d⟩ n l =
      ⟨(scanLine ⟨t, i, []⟩ n l).table, (scanLine ⟨t, i, []⟩ n l).insideComment,
        d ++ (scanLine ⟨t, i, []⟩ n l).dups⟩ := by
  cases hv : nextInside i l with
  | true =>
    rw [scanLine_skip ⟨t, i, d⟩ n l hv, scanLine_skip ⟨t, i, []⟩ n l hv]
    simp
  | false =>
    cases hm : javaImportMatch l with
    | none =>
      rw [scanLine_pru ⟨t, i, d⟩ n l hv hm, scanLine_pru ⟨t, i, []⟩ n l hv hm]
      simp
    | some m =>
      cases hg : tblGet t (identifierOf m.name) with
      | some j =>
        rw [scanLine_dup ⟨t, i, d⟩ n l m j hv hm hg, scanLine_dup ⟨t, i, []⟩ n l m j hv hm hg]
        simp
      | none =>
        rw [scanLine_ins ⟨t, i, d⟩ n l m hv hm hg, scanLine_ins ⟨t, i, []⟩ n l m hv hm hg]
        simp

theorem scanLines_dups_shift (ls : List (List Char)) (t : ImportTable) (i : Bool)
    (d : List JavaImport) (n : Nat) :
    scanLines ⟨t, i, d⟩ n ls =
      ⟨(scanLines ⟨t, i, []⟩ n ls).table, (scanLines ⟨t, i, []⟩ n ls).insideComment,
        d ++ (scanLines ⟨t, i, []⟩ n ls).dups⟩ := by
  induction ls generalizing t i d n with
  | nil => simp [scanLines]
  | cons l ls' ih =>
    show scanLines (scanLine ⟨t, i, d⟩ n l) (n + 1) ls' = _
    rw [scanLine_dups_shift t i d n l]
    rcases hr : scanLine ⟨t, i, []⟩ n l with ⟨rt, ri, rd⟩
    rw [ih rt ri (d ++ rd) (n + 1)]
    show _ = ⟨(scanLines (scanLine ⟨t, i, []⟩ n l) (n + 1) ls').table,
      (scanLines (scanLine ⟨t, i, []⟩ n l) (n + 1) ls').insideComment,
      d ++ (scanLines (scanLine ⟨t, i, []⟩ n l) (n + 1) ls').dups⟩
    rw [hr]
    rw [ih rt ri rd (n + 1)]
    simp

/-- Duplicates newly yielded while scanning the given lines. -/
def newDups (st : ScanState) (n : Nat) (ls : List (List Char)) : List JavaImport :=
  (scanLines ⟨st.table, st.insideComment, []⟩ n ls).dups

theorem scanLines_dups_eq (st : ScanState) (n : Nat) (ls : List (List Char)) :
    (scanLines st n ls).dups = st.dups ++ newDups st n ls := by
  have h := scanLines_dups_shift ls st.table st.insideComment st.dups n
  rw [show (⟨st.table, st.insideComment, st.dups⟩ : ScanState) = st from rfl] at h
  rw [h]
  rfl

theorem scanLines_table_indep (st : ScanState) (n : Nat) (ls : List (List Char)) :
    (scanLines st n ls).table = (scanLines ⟨st.table, st.insideComment, []⟩ n ls).table := by
  have h := scanLines_dups_shift ls st.table st.insideComment st.dups n
  rw [show (⟨st.table, st.insideComment, st.dups⟩ : ScanState) = st from rfl] at h
  rw [h]

theorem newDups_spec (st : ScanState) (n : Nat) (ls : List (List Char)) :
    ∀ d ∈ newDups st n ls, n ≤ d.lineno ∧ d.reason = RemovalReason.DUPLICATE := by
  intro d hd
  rcases dups_mem_of_scanLines ls ⟨st.table, st.insideComment, []⟩ n d hd with h | h
  · simp at h
  · exact h

/-! ### Comment state along a file, and first-match soundness -/

/-- Comment state in force before line `j` when scanning the given lines
from the given initial state. -/
def insideBeforeAux (inside : Bool) (ls : List (List Char)) : Nat → Bool
  | 0 => inside
  | j + 1 => nextInside (insideBeforeAux inside ls j) (ls.getD j [])

theorem insideBeforeAux_cons (inside : Bool) (l : List Char) (ls : List (List Char)) :
    ∀ j, insideBeforeAux inside (l :: ls) (j + 1) = insideBeforeAux (nextInside inside l) ls j := by
  intro j
  induction j with
  | zero => rfl
  | succ j' ih =>
    show nextInside (insideBeforeAux inside (l :: ls) (j' + 1)) ((l :: ls).getD (j' + 1) []) = _
    rw [ih]
    rfl

theorem findPkgFrom_sound : ∀ (ls : List (List Char)) (inside : Bool) (n : Nat)
    (nm : List Char) (m : Nat), findPkgFrom inside n ls = some (nm, m) →
    ∃ k, k < ls.length ∧ m = n + k ∧ insideBeforeAux inside ls (k + 1) = false ∧
      javaPackageMatch (ls.getD k []) = some nm ∧
      ∀ j < k, insideBeforeAux inside ls (j + 1) = true ∨ javaPackageMatch (ls.getD j []) = none := by
  intro ls
  induction ls with
  | nil => intro inside n nm m h; simp [findPkgFrom] at h
  | cons l ls' ih =>
    intro inside n nm m h
    rw [findPkgFrom] at h
    cases hv : nextInside inside l with
    | true =>
      rw [hv, if_pos rfl] at h
      obtain ⟨k', hk1, hk2, hk3, hk4, hk5⟩ := ih true (n + 1) nm m h
      refine ⟨k' + 1, by simp; omega, by omega, ?_, ?_, ?_⟩
      · rw [insideBeforeAux_cons, hv]; exact hk3
      · simpa using hk4
      · intro j hj
        cases j with
        | zero =>
          left
          show nextInside (insideBeforeAux inside (l :: ls') 0) ((l :: ls').getD 0 []) = true
          simpa [insideBeforeAux] using hv
        | succ j' =>
          rw [insideBeforeAux_cons, hv]
          simpa using hk5 j' (by omega)
    | false =>
      rw [hv, if_neg (by simp)] at h
      cases hm : javaPackageMatch l with
      | some nm0 =>
        rw [hm] at h
        simp at h
        refine ⟨0, by simp, by omega, ?_, ?_, by omega⟩
        · show nextInside (insideBeforeAux inside (l :: ls') 0) ((l :: ls').getD 0 []) = false
          simpa [insideBeforeAux] using hv
        · simpa using hm.symm ▸ (by rw [h.1] : some nm0 = some nm)
      | none =>
        rw [hm] at h
        obtain ⟨k', hk1, hk2, hk3, hk4, hk5⟩ := ih false (n + 1) nm m h
        refine ⟨k' + 1, by simp; omega, by omega, ?_, ?_, ?_⟩
        · rw [insideBeforeAux_cons, hv]; exact hk3
        · simpa using hk4
        · intro j hj
          cases j with
          | zero =>
            right
            simpa using hm
          | succ j' =>
            rw [insideBeforeAux_cons, hv]
            simpa using hk5 j' (by omega)

theorem findPkgFrom_none : ∀ (ls : List (List Char)) (inside : Bool) (n : Nat),
    (∀ l ∈ ls, javaPackageMatch l = none) → findPkgFrom inside n ls = none := by
  intro ls
  induction ls with
  | nil => intro inside n _; rfl
  | cons l ls' ih =>
    intro inside n h
    rw [findPkgFrom]
    cases hv : nextInside inside l with
    | true =>
      rw [if_pos rfl]
      exact ih true (n + 1) (fun x hx => h x (by simp [hx]))
    | false =>
      rw [if_neg (by simp), h l (by simp)]
      exact ih false (n + 1) (fun x hx => h x (by simp [hx]))

/-- A line made of the plain import keyword, a dotted name, and a semicolon
contains no comment marker, so it never changes the comment state. -/
theorem nextInside_plain_import (i : Bool) (nm : List Char)
    (hall : ∀ c ∈ nm, isNameChar c = true) :
    nextInside i ("import ".toList ++ nm ++ [';']) = i := by
  apply nextInside_of_no_mark
  · intro hmem
    rcases List.mem_append.mp hmem with hmem | hmem
    · rcases List.mem_append.mp hmem with hmem | hmem
      · revert hmem; decide
      · exact absurd (hall '/' hmem) (by decide)
    · revert hmem; decide
  · intro hmem
    rcases List.mem_append.mp hmem with hmem | hmem
    · rcases List.mem_append.mp hmem with hmem | hmem
      · revert hmem; decide
      · exact absurd (hall '*' hmem) (by decide)
    · revert hmem; decide

/-- Scanning a file of exactly two plain import lines whose names share the
trailing identifier yields one DUPLICATE on the second line and one UNUSED
on the first. -/
theorem scan_two_same_ident (nm1 nm2 : List Char) (h1 : nameShape nm1 = true)
    (h2 : nameShape nm2 = true) (hid : identifierOf nm1 = identifierOf nm2) :
    find_unnecessary_imports
      ["import ".toList ++ nm1 ++ [';'], "import ".toList ++ nm2 ++ [';']] =
      [⟨nm2, 1, false, RemovalReason.DUPLICATE, "import ".toList ++ nm2 ++ [';']⟩,
       ⟨nm1, 0, false, RemovalReason.UNUSED, "import ".toList ++ nm1 ++ [';']⟩] := by
  have hkw : ("import ".toList : List Char) = "import".toList ++ [' '] := rfl
  obtain ⟨hall1, _, _⟩ := nameShape_spec nm1 h1
  obtain ⟨hall2, _, _⟩ := nameShape_spec nm2 h2
  have hm1 := javaImportMatch_eq_nostatic [' '] nm1 [] [] (by simp) (by decide) h1 (by simp)
  have hm2 := javaImportMatch_eq_nostatic [' '] nm2 [] [] (by simp) (by decide) h2 (by simp)
  simp only [List.append_nil] at hm1 hm2
  rw [← hkw] at hm1 hm2
  have hv1 : nextInside initialScanState.insideComment ("import ".toList ++ nm1 ++ [';']) = false :=
    nextInside_plain_import false nm1 hall1
  have hs1 := scanLine_ins initialScanState 0 ("import ".toList ++ nm1 ++ [';'])
    ⟨false, nm1, "import ".toList ++ nm1 ++ [';']⟩ hv1 hm1 rfl
  simp only [initialScanState, List.nil_append] at hs1
  have hv2 : nextInside (false : Bool) ("import ".toList ++ nm2 ++ [';']) = false :=
    nextInside_plain_import false nm2 hall2
  have hg2 : tblGet
      [(identifierOf nm1,
        (⟨nm1, 0, false, RemovalReason.UNUSED, "import ".toList ++ nm1 ++ [';']⟩ : JavaImport))]
      (identifierOf nm2) =
      some ⟨nm1, 0, false, RemovalReason.UNUSED, "import ".toList ++ nm1 ++ [';']⟩ := by
    simp [tblGet, hid]
  have hs2 := scanLine_dup
    ⟨[(identifierOf nm1,
        ⟨nm1, 0, false, RemovalReason.UNUSED, "import ".toList ++ nm1 ++ [';']⟩)], false, []⟩
    1 ("import ".toList ++ nm2 ++ [';'])
    ⟨false, nm2, "import ".toList ++ nm2 ++ [';']⟩
    ⟨nm1, 0, false, RemovalReason.UNUSED, "import ".toList ++ nm1 ++ [';']⟩
    hv2 hm2 hg2
  show (scanLines initialScanState 0 _).dups ++
    (scanLines initialScanState 0 _).table.map (fun e => e.2) = _
  simp only [initialScanState]
  rw [show scanLines ⟨[], false, []⟩ 0
      ["import ".toList ++ nm1 ++ [';'], "import ".toList ++ nm2 ++ [';']] =
      scanLine (scanLine ⟨[], false, []⟩ 0 ("import ".toList ++ nm1 ++ [';'])) 1
        ("import ".toList ++ nm2 ++ [';']) from rfl, hs1, hs2]
  simp

/-! ### Claims -/

/-- Claim C1, counterexample.  A line containing both the block-comment
opener and the closer IS pattern-matched: the scanner derives an UNUSED
finding from the one-line file `import a.B; /* x */`.  Likewise a line that
only closes a previously open block comment is matched: in the two-line
file whose line 0 is `/*` and whose line 1 is `import a.B; */`, line 1 is
inside the comment textually, yet the scanner derives its finding from it.
Both refute the claim that such lines are excluded from pattern matching. -/
theorem c1_counterexample :
    (hasSub ("/*".toList) ("import a.B; /* x */".toList) = true ∧
     hasSub ("*/".toList) ("import a.B; /* x */".toList) = true ∧
     find_unnecessary_imports [("import a.B; /* x */".toList)] =
       [⟨"a.B".toList, 0, false, RemovalReason.UNUSED, "import a.B;".toList⟩]) ∧
    (nextInside false ("/*".toList) = true ∧
     hasSub ("*/".toList) ("import a.B; */".toList) = true ∧
     find_unnecessary_imports ["/*".toList, "import a.B; */".toList] =
       [⟨"a.B".toList, 1, false, RemovalReason.UNUSED, "import a.B;".toList⟩]) := by
  decide

/-- Claim C1, amended.  The skip state computed for a line (which is also
the comment state handed to the next line) equals: the line contains no
closer, and it contains an opener or continues an open comment.  Hence a
line containing the closer is never excluded from pattern matching, even
when it also contains the opener or closes a previously open comment, and
a line containing the opener without a closer is always excluded. -/
theorem c1_comment_skip :
    (∀ (inside : Bool) (line : List Char),
      nextInside inside line =
        ((hasSub ("/*".toList) line || inside) && !hasSub ("*/".toList) line)) ∧
    (∀ (st : ScanState) (line : List Char),
      hasSub ("*/".toList) line = true → nextInside st.insideComment line = false) ∧
    (∀ (inside : Bool) (line : List Char),
      hasSub ("/*".toList) line = true → hasSub ("*/".toList) line = false →
        nextInside inside line = true) := by
  refine ⟨nextInside_eq, ?_, ?_⟩
  · intro st line h
    rw [nextInside_eq, h]
    simp
  · intro inside line h1 h2
    rw [nextInside_eq, h1, h2]
    simp

theorem c1_witness :
    nextInside true ("*/ done".toList) = false ∧
    nextInside false ("start /* open".toList) = true :=
  ⟨c1_comment_skip.2.1 ⟨[], true, []⟩ ("*/ done".toList) (by decide),
   c1_comment_skip.2.2 false ("start /* open".toList) (by decide) (by decide)⟩

/-- Claim C2, counterexample.  The import pattern allows no leading
whitespace: re.match anchors the literal keyword at position 0, so the
line `    import java.util.ArrayList;` is not matched, and the scanner
yields zero findings on the one-line file containing it, not the one
UNUSED finding required by the claim. -/
theorem c2_counterexample :
    javaImportMatch ("    import java.util.ArrayList;".toList) = none ∧
    find_unnecessary_imports [("    import java.util.ArrayList;".toList)] = [] := by
  decide

/-- Claim C2, amended.  The Import Scanner matches the lines that start at
column 0 (no leading whitespace) with the import keyword, whitespace, an
optional static modifier followed by whitespace, a dotted identifier of at
least two word-character components, optional whitespace, and a
terminating semicolon, with text after the semicolon ignored; and for the
file containing the single line `import java.util.ArrayList;` (no leading
whitespace) the scanner yields exactly one UNUSED finding at index 0. -/
theorem c2_import_grammar :
    (∀ ws1 nm ws2 tail : List Char, ws1 ≠ [] → (∀ c ∈ ws1, isSpaceChar c = true) →
      nameShape nm = true → (∀ c ∈ ws2, isSpaceChar c = true) →
      javaImportMatch ("import".toList ++ ws1 ++ nm ++ ws2 ++ ';' :: tail) =
        some ⟨false, nm, "import".toList ++ ws1 ++ nm ++ ws2 ++ [';']⟩) ∧
    (∀ ws1 wss nm ws2 tail : List Char, ws1 ≠ [] → (∀ c ∈ ws1, isSpaceChar c = true) →
      wss ≠ [] → (∀ c ∈ wss, isSpaceChar c = true) →
      nameShape nm = true → (∀ c ∈ ws2, isSpaceChar c = true) →
      javaImportMatch
        ("import".toList ++ ws1 ++ "static".toList ++ wss ++ nm ++ ws2 ++ ';' :: tail) =
        some ⟨true, nm, "import".toList ++ ws1 ++ "static".toList ++ wss ++ nm ++ ws2 ++ [';']⟩) ∧
    find_unnecessary_imports [("import java.util.ArrayList;".toList)] =
      [⟨"java.util.ArrayList".toList, 0, false, RemovalReason.UNUSED,
        "import java.util.ArrayList;".toList⟩] := by
  refine ⟨?_, ?_, by decide⟩
  · intro ws1 nm ws2 tail h1 h2 h3 h4
    exact javaImportMatch_eq_nostatic ws1 nm ws2 tail h1 h2 h3 h4
  · intro ws1 wss nm ws2 tail h1 h2 h3 h4 h5 h6
    exact javaImportMatch_eq_static ws1 wss nm ws2 tail h1 h2 h3 h4 h5 h6

theorem c2_witness :
    javaImportMatch ("import".toList ++ [' '] ++ "a.b".toList ++ [] ++ ';' :: []) =
      some ⟨false, "a.b".toList, "import".toList ++ [' '] ++ "a.b".toList ++ [] ++ [';']⟩ ∧
    javaImportMatch
      ("import".toList ++ [' '] ++ "static".toList ++ [' '] ++ "a.b".toList ++ [] ++ ';' :: []) =
      some ⟨true, "a.b".toList,
        "import".toList ++ [' '] ++ "static".toList ++ [' '] ++ "a.b".toList ++ [] ++ [';']⟩ :=
  ⟨c2_import_grammar.1 [' '] ("a.b".toList) [] [] (by decide) (by decide) (by decide) (by decide),
   c2_import_grammar.2.1 [' '] [' '] ("a.b".toList) [] [] (by decide) (by decide) (by decide)
     (by decide) (by decide) (by decide)⟩

/-- Claim C3, counterexample.  The package pattern requires at least two
dotted components and no leading whitespace: `package foo;` is not matched
(find_java_package_statement returns none), nor is `   package a.b;` with
leading whitespace, while `package a.b;` is found at index 0. -/
theorem c3_counterexample :
    find_java_package_statement [("package foo;".toList)] = none ∧
    find_java_package_statement [("   package a.b;".toList)] = none ∧
    find_java_package_statement [("package a.b;".toList)] = some ("a.b".toList, 0) := by
  decide

/-- Claim C3, amended.  find_java_package_statement returns the first line
that is not excluded by the comment filter and starts at column 0 (no
leading whitespace) with the package keyword, whitespace, a dotted
identifier of at least two word-character components, optional whitespace,
and a terminating semicolon; it returns none when no line matches the
pattern; a single-component declaration such as `package foo;` is NOT
matched. -/
theorem c3_package_grammar :
    (∀ ws1 nm ws2 tail : List Char, ws1 ≠ [] → (∀ c ∈ ws1, isSpaceChar c = true) →
      nameShape nm = true → (∀ c ∈ ws2, isSpaceChar c = true) →
      javaPackageMatch ("package".toList ++ ws1 ++ nm ++ ws2 ++ ';' :: tail) = some nm) ∧
    javaPackageMatch ("package foo;".toList) = none ∧
    (∀ lines : List (List Char), (∀ l ∈ lines, javaPackageMatch l = none) →
      find_java_package_statement lines = none) ∧
    (∀ (lines : List (List Char)) (nm : List Char) (m : Nat),
      find_java_package_statement lines = some (nm, m) →
      m < lines.length ∧ insideBeforeAux false lines (m + 1) = false ∧
      javaPackageMatch (lines.getD m []) = some nm ∧
      ∀ j < m, insideBeforeAux false lines (j + 1) = true ∨
        javaPackageMatch (lines.getD j []) = none) := by
  refine ⟨?_, by decide, ?_, ?_⟩
  · intro ws1 nm ws2 tail h1 h2 h3 h4
    exact javaPackageMatch_eq ws1 nm ws2 tail h1 h2 h3 h4
  · intro lines h
    exact findPkgFrom_none lines false 0 h
  · intro lines nm m h
    obtain ⟨k, hk1, hk2, hk3, hk4, hk5⟩ := findPkgFrom_sound lines false 0 nm m h
    have hmk : m = k := by omega
    subst hmk
    exact ⟨hk1, hk3, hk4, hk5⟩

theorem c3_witness :
    javaPackageMatch ("package".toList ++ [' '] ++ "a.b".toList ++ [] ++ ';' :: []) =
      some ("a.b".toList) ∧
    find_java_package_statement [("hello".toList)] = none ∧
    (0 < 1 ∧ insideBeforeAux false [("package a.b;".toList)] 1 = false ∧
      javaPackageMatch ([("package a.b;".toList)].getD 0 []) = some ("a.b".toList) ∧
      ∀ j < 0, insideBeforeAux false [("package a.b;".toList)] (j + 1) = true ∨
        javaPackageMatch ([("package a.b;".toList)].getD j []) = none) :=
  ⟨c3_package_grammar.1 [' '] ("a.b".toList) [] [] (by decide) (by decide) (by decide) (by decide),
   c3_package_grammar.2.2.1 [("hello".toList)] (by decide),
   c3_package_grammar.2.2.2 [("package a.b;".toList)] ("a.b".toList) 0 (by decide)⟩

/-- Claim C4, counterexample.  After scanning the two-line file
`import a.Foo;` / `import b.Foo;`, the most recently seen unused-so-far
declaration of an import bearing the identifier `Foo` is line 1's `b.Foo` (the
file ends right after it, so it is never referenced), yet the table maps
`Foo` to line 0's declaration `a.Foo`: on duplicate detection the entry is
not replaced by the more recent declaration. -/
theorem c4_counterexample :
    (scanLines initialScanState 0
      ["import a.Foo;".toList, "import b.Foo;".toList]).table =
      [("Foo".toList,
        ⟨"a.Foo".toList, 0, false, RemovalReason.UNUSED, "import a.Foo;".toList⟩)] ∧
    javaImportMatch ("import b.Foo;".toList) =
      some ⟨false, "b.Foo".toList, "import b.Foo;".toList⟩ ∧
    identifierOf ("b.Foo".toList) = "Foo".toList := by
  decide

/-- Claim C4, amended.  At every scan position the table holds at most one
live entry per identifier, every entry is keyed by the identifier of
the import it tracks and carries the UNUSED reason, and each entry is the
earliest still-live declaration of its identifier: when a visible line
matches the import pattern and its identifier is already tracked, the
table is left completely unchanged (the duplicate does not replace it). -/
theorem c4_table_invariant :
    (∀ lines : List (List Char),
      (((scanLines initialScanState 0 lines).table.map (fun e => e.1)).Nodup ∧
       ∀ e ∈ (scanLines initialScanState 0 lines).table,
         e.1 = identifierOf e.2.name ∧ e.2.reason = RemovalReason.UNUSED)) ∧
    (∀ (st : ScanState) (n : Nat) (line : List Char) (m : ImportRe) (j : JavaImport),
      nextInside st.insideComment line = false → javaImportMatch line = some m →
      tblGet st.table (identifierOf m.name) = some j →
      (scanLine st n line).table = st.table) := by
  constructor
  · intro lines
    have h := WFtable_scanLines lines initialScanState 0
      ⟨by simp [initialScanState], by simp [initialScanState]⟩
    exact ⟨h.1, h.2⟩
  · intro st n line m j hv hm hg
    rw [scanLine_dup st n line m j hv hm hg]

theorem c4_witness :
    (scanLine ⟨[("Foo".toList,
        ⟨"a.Foo".toList, 0, false, RemovalReason.UNUSED, "import a.Foo;".toList⟩)], false, []⟩
      1 ("import b.Foo;".toList)).table =
      [("Foo".toList,
        ⟨"a.Foo".toList, 0, false, RemovalReason.UNUSED, "import a.Foo;".toList⟩)] :=
  c4_table_invariant.2
    ⟨[("Foo".toList,
        ⟨"a.Foo".toList, 0, false, RemovalReason.UNUSED, "import a.Foo;".toList⟩)], false, []⟩
    1 ("import b.Foo;".toList)
    ⟨false, "b.Foo".toList, "import b.Foo;".toList⟩
    ⟨"a.Foo".toList, 0, false, RemovalReason.UNUSED, "import a.Foo;".toList⟩
    (by decide) (by decide) (by decide)

/-- Claim C5, counterexample.  The file `import a.Foo;` / `x = Foo;` /
`import b.Foo;` contains exactly two import lines whose dotted names share
the trailing identifier `Foo`, yet the scanner yields zero DUPLICATE
findings: the intervening whole-word use deletes the tracked entry, so the
second import is tracked anew and reported UNUSED instead. -/
theorem c5_counterexample :
    javaImportMatch ("x = Foo;".toList) = none ∧
    wordOccurs ("Foo".toList) ("x = Foo;".toList) = true ∧
    find_unnecessary_imports
      ["import a.Foo;".toList, "x = Foo;".toList, "import b.Foo;".toList] =
      [⟨"b.Foo".toList, 2, false, RemovalReason.UNUSED, "import b.Foo;".toList⟩] := by
  decide

/-- Claim C5, amended.  For every file consisting of exactly two
plain import lines whose dotted names end in the same trailing identifier (and
no intervening line that uses the identifier), the scanner yields exactly
one DUPLICATE finding, attached to the second line and never the first,
and the table entry for the identifier is not overwritten; in general,
whenever a visible line matches the import pattern while its identifier is
already tracked, the step emits exactly one DUPLICATE finding for that
line and leaves the table unchanged. -/
theorem c5_duplicate_behaviour :
    (∀ nm1 nm2 : List Char, nameShape nm1 = true → nameShape nm2 = true →
      identifierOf nm1 = identifierOf nm2 →
      find_unnecessary_imports
        ["import ".toList ++ nm1 ++ [';'], "import ".toList ++ nm2 ++ [';']] =
        [⟨nm2, 1, false, RemovalReason.DUPLICATE, "import ".toList ++ nm2 ++ [';']⟩,
         ⟨nm1, 0, false, RemovalReason.UNUSED, "import ".toList ++ nm1 ++ [';']⟩]) ∧
    (∀ (st : ScanState) (n : Nat) (line : List Char) (m : ImportRe) (j : JavaImport),
      nextInside st.insideComment line = false → javaImportMatch line = some m →
      tblGet st.table (identifierOf m.name) = some j →
      scanLine st n line = ⟨st.table, false,
        st.dups ++ [⟨m.name, n, m.isStatic, RemovalReason.DUPLICATE, m.group0⟩]⟩) :=
  ⟨scan_two_same_ident, scanLine_dup⟩

theorem c5_witness :
    find_unnecessary_imports
      ["import ".toList ++ "a.Foo".toList ++ [';'],
       "import ".toList ++ "b.Foo".toList ++ [';']] =
      [⟨"b.Foo".toList, 1, false, RemovalReason.DUPLICATE,
        "import ".toList ++ "b.Foo".toList ++ [';']⟩,
       ⟨"a.Foo".toList, 0, false, RemovalReason.UNUSED,
        "import ".toList ++ "a.Foo".toList ++ [';']⟩] :=
  c5_duplicate_behaviour.1 ("a.Foo".toList) ("b.Foo".toList) (by decide) (by decide) (by decide)

/-- Claim C10 (confirmed).  A line that matches the import pattern never
marks any identifier as used: the scanner's usage test runs only on
non-import lines, so on an import-matching line the table is only ever
extended (by the new entry) or left unchanged, never pruned — even when a
live identifier occurs in the text after the semicolon. -/
theorem c10_import_line_preserves_table :
    ∀ (st : ScanState) (n : Nat) (line : List Char) (m : ImportRe),
      javaImportMatch line = some m →
      ∃ t2, (scanLine st n line).table = st.table ++ t2 := by
  intro st n line m hm
  cases hv : nextInside st.insideComment line with
  | true => exact ⟨[], by rw [scanLine_skip st n line hv]; simp⟩
  | false =>
    cases hg : tblGet st.table (identifierOf m.name) with
    | some j => exact ⟨[], by rw [scanLine_dup st n line m j hv hm hg]; simp⟩
    | none => exact ⟨_, by rw [scanLine_ins st n line m hv hm hg]⟩

theorem c10_witness :
    ∃ t2, (scanLine ⟨[("Foo".toList,
        ⟨"a.Foo".toList, 0, false, RemovalReason.UNUSED, "import a.Foo;".toList⟩)], false, []⟩
      3 ("import x.B; uses Foo after semicolon".toList)).table =
      [("Foo".toList,
        ⟨"a.Foo".toList, 0, false, RemovalReason.UNUSED, "import a.Foo;".toList⟩)] ++ t2 :=
  c10_import_line_preserves_table
    ⟨[("Foo".toList,
        ⟨"a.Foo".toList, 0, false, RemovalReason.UNUSED, "import a.Foo;".toList⟩)], false, []⟩
    3 ("import x.B; uses Foo after semicolon".toList)
    ⟨false, "x.B".toList, "import x.B;".toList⟩ (by decide)

/-! ### Path truncation for the package checker -/

theorem trunc_append (pre alt : List (List Char)) (n : Nat) (h : alt.length = n) :
    (if (pre ++ alt).length > n then (pre ++ alt).drop ((pre ++ alt).length - n)
     else (pre ++ alt)) = alt := by
  by_cases hp : pre = []
  · subst hp
    simp [h]
  · have hl : (pre ++ alt).length = pre.length + n := by simp [h]
    have hgt : (pre ++ alt).length > n := by
      rw [hl]
      have := List.length_pos.mpr hp
      omega
    rw [if_pos hgt, hl]
    have h2 : pre.length + n - n = pre.length := by omega
    rw [h2, List.drop_left]

theorem checkJPP_eval (lines : List (List Char)) (nm : List Char) (ln : Nat)
    (pre alt : List (List Char)) (hfind : find_java_package_statement lines = some (nm, ln))
    (hlen : alt.length = (splitDot nm).length) :
    checkJavaPackagePath lines (pre ++ alt) =
      if splitDot nm = alt then PkgCheck.ok else PkgCheck.mismatch (joinDot alt) nm ln := by
  unfold checkJavaPackagePath
  rw [hfind]
  dsimp only
  rw [trunc_append pre alt (splitDot nm).length hlen]

theorem checkJPP_eval_all (lines : List (List Char)) (nm : List Char) (ln : Nat)
    (parts : List (List Char)) (hfind : find_java_package_statement lines = some (nm, ln)) :
    checkJavaPackagePath lines parts =
      if splitDot nm = parts.drop (parts.length - (splitDot nm).length) then PkgCheck.ok
      else PkgCheck.mismatch (joinDot (parts.drop (parts.length - (splitDot nm).length)))
        nm ln := by
  unfold checkJavaPackagePath
  rw [hfind]
  dsimp only
  have hX : (if parts.length > (splitDot nm).length then
      parts.drop (parts.length - (splitDot nm).length) else parts) =
      parts.drop (parts.length - (splitDot nm).length) := by
    by_cases hgt : parts.length > (splitDot nm).length
    · rw [if_pos hgt]
    · rw [if_neg hgt]
      have h0 : parts.length - (splitDot nm).length = 0 := by omega
      rw [h0, List.drop_zero]
  rw [hX]

/-- Claim C8 (confirmed).  With a found package declaration, the checker
compares only the trailing path segments, at most as many as the package
has dotted components: prepending any directories in front of a segment
sequence of exactly that many components never changes the outcome; when
the trailing segments equal the package's components the check is ok, and
when a segment sequence of the same length differs from the components the
check reports a mismatch naming the expected dotted path and the actual
package name.  For an arbitrary path the outcome is fully determined by
dropping all but the last (number of components) segments — dropping
nothing when the path is shorter — and a path with strictly fewer
segments than the package has components is always reported as a
mismatch naming the whole path as the expected dotted prefix. -/
theorem c8_package_path_check :
    (∀ (lines : List (List Char)) (nm : List Char) (ln : Nat) (pre alt : List (List Char)),
      find_java_package_statement lines = some (nm, ln) →
      alt.length = (splitDot nm).length →
      checkJavaPackagePath lines (pre ++ alt) = checkJavaPackagePath lines alt) ∧
    (∀ (lines : List (List Char)) (nm : List Char) (ln : Nat) (pre : List (List Char)),
      find_java_package_statement lines = some (nm, ln) →
      checkJavaPackagePath lines (pre ++ splitDot nm) = PkgCheck.ok) ∧
    (∀ (lines : List (List Char)) (nm : List Char) (ln : Nat) (pre alt : List (List Char)),
      find_java_package_statement lines = some (nm, ln) →
      alt.length = (splitDot nm).length → alt ≠ splitDot nm →
      checkJavaPackagePath lines (pre ++ alt) = PkgCheck.mismatch (joinDot alt) nm ln) ∧
    (∀ (lines : List (List Char)) (nm : List Char) (ln : Nat) (parts : List (List Char)),
      find_java_package_statement lines = some (nm, ln) →
      checkJavaPackagePath lines parts =
        if splitDot nm = parts.drop (parts.length - (splitDot nm).length) then PkgCheck.ok
        else PkgCheck.mismatch (joinDot (parts.drop (parts.length - (splitDot nm).length)))
          nm ln) ∧
    (∀ (lines : List (List Char)) (nm : List Char) (ln : Nat) (parts : List (List Char)),
      find_java_package_statement lines = some (nm, ln) →
      parts.length < (splitDot nm).length →
      checkJavaPackagePath lines parts = PkgCheck.mismatch (joinDot parts) nm ln) := by
  refine ⟨?_, ?_, ?_, ?_, ?_⟩
  · intro lines nm ln pre alt hfind hlen
    rw [checkJPP_eval lines nm ln pre alt hfind hlen]
    have h2 := checkJPP_eval lines nm ln [] alt hfind hlen
    rw [List.nil_append] at h2
    rw [h2]
  · intro lines nm ln pre hfind
    rw [checkJPP_eval lines nm ln pre (splitDot nm) hfind rfl]
    simp
  · intro lines nm ln pre alt hfind hlen hne
    rw [checkJPP_eval lines nm ln pre alt hfind hlen]
    rw [if_neg (fun h => hne h.symm)]
  · intro lines nm ln parts hfind
    exact checkJPP_eval_all lines nm ln parts hfind
  · intro lines nm ln parts hfind hlen
    rw [checkJPP_eval_all lines nm ln parts hfind]
    have h0 : parts.length - (splitDot nm).length = 0 := by omega
    rw [h0, List.drop_zero]
    rw [if_neg (fun h => by
      have := congrArg List.length h
      omega)]

theorem c8_witness :
    checkJavaPackagePath [("package com.foo;".toList)]
      ([("src".toList)] ++ splitDot ("com.foo".toList)) = PkgCheck.ok ∧
    checkJavaPackagePath [("package com.foo;".toList)]
      ([("src".toList)] ++ [("com".toList), ("bar".toList)]) =
      PkgCheck.mismatch (joinDot [("com".toList), ("bar".toList)]) ("com.foo".toList) 0 ∧
    checkJavaPackagePath [("package com.foo;".toList)] [] =
      PkgCheck.mismatch (joinDot ([] : List (List Char))) ("com.foo".toList) 0 ∧
    checkJavaPackagePath [("package com.foo;".toList)] [("com".toList)] =
      PkgCheck.mismatch (joinDot [("com".toList)]) ("com.foo".toList) 0 :=
  ⟨c8_package_path_check.2.1 [("package com.foo;".toList)] ("com.foo".toList) 0
     [("src".toList)] (by decide),
   c8_package_path_check.2.2.1 [("package com.foo;".toList)] ("com.foo".toList) 0
     [("src".toList)] [("com".toList), ("bar".toList)] (by decide) (by decide) (by decide),
   c8_package_path_check.2.2.2.2 [("package com.foo;".toList)] ("com.foo".toList) 0
     [] (by decide) (by decide),
   c8_package_path_check.2.2.2.2 [("package com.foo;".toList)] ("com.foo".toList) 0
     [("com".toList)] (by decide) (by decide)⟩

/-! ### The rewriter's grouping equals per-line filtering -/

theorem mem_insertByLineno (j : JavaImport) : ∀ (l : List JavaImport) (a : JavaImport),
    a ∈ insertByLineno j l ↔ a = j ∨ a ∈ l := by
  intro l
  induction l with
  | nil => intro a; simp [insertByLineno]
  | cons x xs ih =>
    intro a
    by_cases hlt : j.lineno < x.lineno
    · simp [insertByLineno, hlt]
    · simp only [insertByLineno, if_neg hlt, List.mem_cons, ih]
      tauto

theorem insertByLineno_sorted (j : JavaImport) : ∀ (l : List JavaImport),
    l.Pairwise (fun a b => a.lineno ≤ b.lineno) →
    (insertByLineno j l).Pairwise (fun a b => a.lineno ≤ b.lineno) := by
  intro l
  induction l with
  | nil => intro _; simp [insertByLineno]
  | cons x xs ih =>
    intro h
    rw [List.pairwise_cons] at h
    by_cases hlt : j.lineno < x.lineno
    · rw [insertByLineno, if_pos hlt]
      rw [List.pairwise_cons]
      constructor
      · intro a ha
        rcases List.mem_cons.mp ha with ha | ha
        · subst ha; omega
        · have := h.1 a ha; omega
      · rw [List.pairwise_cons]
        exact h
    · rw [insertByLineno, if_neg hlt]
      rw [List.pairwise_cons]
      constructor
      · intro a ha
        rcases (mem_insertByLineno j xs a).mp ha with ha | ha
        · subst ha; omega
        · exact h.1 a ha
      · exact ih h.2

theorem sortByLineno_sorted (l : List JavaImport) :
    (sortByLineno l).Pairwise (fun a b => a.lineno ≤ b.lineno) := by
  have key : ∀ (l acc : List JavaImport),
      acc.Pairwise (fun a b => a.lineno ≤ b.lineno) →
      (l.foldl (fun acc j => insertByLineno j acc) acc).Pairwise
        (fun a b => a.lineno ≤ b.lineno) := by
    intro l
    induction l with
    | nil => intro acc h; exact h
    | cons j js ih => intro acc h; exact ih (insertByLineno j acc) (insertByLineno_sorted j acc h)
  exact key l [] (by simp)

theorem insertByLineno_filter (j : JavaImport) (m : Nat) : ∀ (l : List JavaImport),
    l.Pairwise (fun a b => a.lineno ≤ b.lineno) →
    (insertByLineno j l).filter (fun x => x.lineno = m) =
      l.filter (fun x => x.lineno = m) ++ (if j.lineno = m then [j] else []) := by
  intro l
  induction l with
  | nil =>
    intro _
    by_cases hj : j.lineno = m <;> simp [insertByLineno, List.filter, hj]
  | cons x xs ih =>
    intro h
    rw [List.pairwise_cons] at h
    by_cases hlt : j.lineno < x.lineno
    · rw [insertByLineno, if_pos hlt]
      by_cases hj : j.lineno = m
      · have hnil : (x :: xs).filter (fun x => x.lineno = m) = [] := by
          rw [List.filter_eq_nil_iff]
          intro a ha
          rcases List.mem_cons.mp ha with ha | ha
          · subst ha; simp; omega
          · have := h.1 a ha; simp; omega
        rw [List.filter_cons_of_pos (by simp [hj]), hnil]
        simp [hj]
      · rw [List.filter_cons_of_neg (by simp [hj])]
        simp [hj]
    · rw [insertByLineno, if_neg hlt]
      by_cases hx : x.lineno = m
      · rw [List.filter_cons_of_pos (by simp [hx]), List.filter_cons_of_pos (by simp [hx]),
          ih h.2]
        simp
      · rw [List.filter_cons_of_neg (by simp [hx]), List.filter_cons_of_neg (by simp [hx]),
          ih h.2]

theorem sortByLineno_filter (l : List JavaImport) (m : Nat) :
    (sortByLineno l).filter (fun x => x.lineno = m) = l.filter (fun x => x.lineno = m) := by
  have key : ∀ (l acc : List JavaImport),
      acc.Pairwise (fun a b => a.lineno ≤ b.lineno) →
      (l.foldl (fun acc j => insertByLineno j acc) acc).filter (fun x => x.lineno = m) =
        acc.filter (fun x => x.lineno = m) ++ l.filter (fun x => x.lineno = m) := by
    intro l
    induction l with
    | nil => intro acc _; simp
    | cons j js ih =>
      intro acc h
      show (js.foldl (fun acc j => insertByLineno j acc) (insertByLineno j acc)).filter _ = _
      rw [ih (insertByLineno j acc) (insertByLineno_sorted j acc h),
        insertByLineno_filter j m acc h]
      by_cases hj : j.lineno = m
      · rw [List.filter_cons_of_pos (by simp [hj])]
        simp [hj]
      · rw [List.filter_cons_of_neg (by simp [hj])]
        simp [hj]
  have := key l [] (by simp)
  simpa [sortByLineno] using this

theorem groupByLineno_eq_nil (l : List JavaImport) : groupByLineno l = [] ↔ l = [] := by
  cases l with
  | nil => simp [groupByLineno]
  | cons j js =>
    simp only [groupByLineno]
    cases h : groupByLineno js with
    | nil => simp
    | cons p rest =>
      obtain ⟨k, g⟩ := p
      by_cases hk : j.lineno = k <;> simp [hk]

theorem groupByLineno_head_key (j : JavaImport) (js : List JavaImport) :
    ∃ g rest, groupByLineno (j :: js) = (j.lineno, g) :: rest := by
  rw [groupByLineno]
  cases h : groupByLineno js with
  | nil => exact ⟨[j], [], rfl⟩
  | cons p rest =>
    obtain ⟨k, g⟩ := p
    dsimp only
    by_cases hk : j.lineno = k
    · subst hk
      rw [if_pos rfl]
      exact ⟨j :: g, rest, rfl⟩
    · rw [if_neg hk]
      exact ⟨[j], (k, g) :: rest, rfl⟩

theorem lookup_group_sorted : ∀ (l : List JavaImport),
    l.Pairwise (fun a b => a.lineno ≤ b.lineno) → ∀ m,
    (lookupLineno (groupByLineno l) m).getD [] = l.filter (fun x => x.lineno = m) := by
  intro l
  induction l with
  | nil => intro _ m; simp [groupByLineno, lookupLineno]
  | cons j js ih =>
    intro h m
    rw [List.pairwise_cons] at h
    cases hG : groupByLineno js with
    | nil =>
      have hjs : js = [] := (groupByLineno_eq_nil js).mp hG
      subst hjs
      rw [groupByLineno, hG]
      by_cases hm : j.lineno = m
      · rw [lookupLineno, if_pos hm]
        simp [List.filter, hm]
      · rw [lookupLineno, if_neg hm]
        simp [List.filter, hm, lookupLineno]
    | cons p rest =>
      obtain ⟨k, g⟩ := p
      have hjsne : js ≠ [] := by
        intro hnil
        rw [hnil] at hG
        simp [groupByLineno] at hG
      obtain ⟨x, xs, hx⟩ := List.exists_cons_of_ne_nil hjsne
      have hk : k = x.lineno ∧ ∃ g0 rest0, g = g0 ∧ rest = rest0 ∧
          groupByLineno js = (x.lineno, g0) :: rest0 := by
        obtain ⟨g0, rest0, hh⟩ := groupByLineno_head_key x xs
        rw [← hx] at hh
        rw [hG] at hh
        injection hh with h1 h2
        injection h1 with h1a h1b
        exact ⟨h1a, g0, rest0, h1b, h2, by rw [hG, h1a, h1b, h2]⟩
      rw [groupByLineno, hG]
      dsimp only
      by_cases hjk : j.lineno = k
      · rw [if_pos hjk]
        by_cases hm : k = m
        · rw [lookupLineno, if_pos hm]
          have hfil : js.filter (fun x => x.lineno = m) = (lookupLineno ((k, g) :: rest) m).getD [] := by
            rw [← hG, ih h.2 m]
          rw [lookupLineno, if_pos hm] at hfil
          simp at hfil
          rw [List.filter_cons_of_pos (by simp; omega)]
          simp [hfil]
        · rw [lookupLineno, if_neg hm]
          have hfil : js.filter (fun x => x.lineno = m) = (lookupLineno ((k, g) :: rest) m).getD [] := by
            rw [← hG, ih h.2 m]
          rw [lookupLineno, if_neg hm] at hfil
          rw [List.filter_cons_of_neg (by simp; omega)]
          rw [hfil]
      · rw [if_neg hjk]
        by_cases hm : j.lineno = m
        · rw [lookupLineno, if_pos hm]
          have hfil : js.filter (fun x => x.lineno = m) = [] := by
            rw [List.filter_eq_nil_iff]
            intro a ha
            rw [hx] at ha
            have hxk : m < x.lineno := by
              have := h.1 x (by rw [hx]; simp)
              omega
            rcases List.mem_cons.mp ha with ha | ha
            · subst ha; simp; omega
            · have hxxs : x.lineno ≤ a.lineno := by
                have hp := h.2
                rw [hx, List.pairwise_cons] at hp
                exact hp.1 a ha
              simp
              omega
          rw [List.filter_cons_of_pos (by simp [hm]), hfil]
          simp
        · rw [lookupLineno, if_neg hm]
          rw [List.filter_cons_of_neg (by simp [hm])]
          rw [← ih h.2 m, hG]

theorem rewriteGo_eq (imps : List JavaImport) (tbl : List (Nat × List JavaImport))
    (h : ∀ m, (lookupLineno tbl m).getD [] = imps.filter (fun x => x.lineno = m)) :
    ∀ (ls : List (List Char)) (n : Nat), rewriteGo tbl n ls = rewriteFrom imps n ls := by
  intro ls
  induction ls with
  | nil => intro n; rfl
  | cons l ls' ih =>
    intro n
    rw [rewriteGo, rewriteFrom, h n, ih (n + 1)]

/-- The faithful grouping-based rewriter coincides with the per-line
filtering characterization. -/
theorem rewrite_eq_from (lines : List (List Char)) (imps : List JavaImport) :
    lines_with_unnecessary_imports_removed lines imps = rewriteFrom imps 0 lines := by
  unfold lines_with_unnecessary_imports_removed
  apply rewriteGo_eq
  intro m
  rw [lookup_group_sorted (sortByLineno imps) (sortByLineno_sorted imps) m,
    sortByLineno_filter imps m]

theorem rewriteFrom_nil : ∀ (ls : List (List Char)) (n : Nat), rewriteFrom [] n ls = ls := by
  intro ls
  induction ls with
  | nil => intro n; rfl
  | cons l ls' ih =>
    intro n
    rw [rewriteFrom]
    simp only [List.filter_nil]
    rw [ih (n + 1)]
    simp

/-- Claim C9 (confirmed).  The rewriter's sorted-groupby bookkeeping is
equivalent to the per-line characterization rewriteFrom: each line whose
index carries no findings is emitted unchanged and in original order; a
line whose index carries findings is emitted with every finding's exact
matched text removed, and is dropped exactly when the remainder consists
of whitespace only; with an empty findings list the file is reproduced
verbatim. -/
theorem c9_rewriter_frame :
    (∀ (lines : List (List Char)) (imps : List JavaImport),
      lines_with_unnecessary_imports_removed lines imps = rewriteFrom imps 0 lines) ∧
    (∀ lines : List (List Char), lines_with_unnecessary_imports_removed lines [] = lines) := by
  constructor
  · exact rewrite_eq_from
  · intro lines
    rw [rewrite_eq_from lines [], rewriteFrom_nil]

/-! ### Uses delete tracked identifiers for the rest of the scan -/

theorem ident_lineno_invariant (ident : List Char) (N : Nat) :
    ∀ (ls : List (List Char)) (st : ScanState) (n : Nat), N ≤ n →
    (∀ e ∈ st.table, e.1 = ident → N ≤ e.2.lineno) →
    ∀ e ∈ (scanLines st n ls).table, e.1 = ident → N ≤ e.2.lineno := by
  intro ls
  induction ls with
  | nil => intro st n _ hinv; exact hinv
  | cons l ls' ih =>
    intro st n hn hinv
    apply ih (scanLine st n l) (n + 1) (by omega)
    intro e he hid
    rcases scanLine_table_cases st n l with hc | ⟨m, _, _, hc⟩ | hc
    · rw [hc] at he; exact hinv e he hid
    · rw [hc] at he
      rcases List.mem_append.mp he with he | he
      · exact hinv e he hid
      · simp at he
        subst he
        simp
        omega
    · rw [hc] at he; exact hinv e (List.mem_filter.mp he).1 hid

/-- Claim C6 (amended).  If some visible non-import line of the file
contains the identifier as a whole word, then every UNUSED finding for
that identifier stems from an import declared strictly after that line; in
particular an import declared before the use is never reported UNUSED.
(DUPLICATE findings already emitted before the use are unaffected, and
occurrences inside comment-skipped lines or on import-matching lines do
not count as uses.) -/
theorem c6_use_clears_unused :
    ∀ (pre : List (List Char)) (lm : List Char) (post : List (List Char)) (ident : List Char),
      nextInside (scanLines initialScanState 0 pre).insideComment lm = false →
      javaImportMatch lm = none →
      wordOccurs ident lm = true →
      ∀ j ∈ find_unnecessary_imports (pre ++ lm :: post),
        j.reason = RemovalReason.UNUSED → identifierOf j.name = ident →
        pre.length < j.lineno := by
  intro pre lm post ident hv hm hw j hj hr hid
  have hsplit : scanLines initialScanState 0 (pre ++ lm :: post) =
      scanLines (scanLine (scanLines initialScanState 0 pre) pre.length lm)
        (pre.length + 1) post := by
    rw [scanLines_append initialScanState 0 pre (lm :: post)]
    rw [Nat.zero_add]
    rfl
  have hpru := scanLine_pru (scanLines initialScanState 0 pre) pre.length lm hv hm
  have hclear : ∀ e ∈ (scanLine (scanLines initialScanState 0 pre) pre.length lm).table,
      e.1 = ident → pre.length + 1 ≤ e.2.lineno := by
    intro e he hide
    rw [hpru] at he
    have := (List.mem_filter.mp he).2
    rw [hide, hw] at this
    simp at this
  have hfinal := ident_lineno_invariant ident (pre.length + 1) post
    (scanLine (scanLines initialScanState 0 pre) pre.length lm) (pre.length + 1)
    (by omega) hclear
  have hWF := WFtable_scanLines (pre ++ lm :: post) initialScanState 0
    ⟨by simp [initialScanState], by simp [initialScanState]⟩
  unfold find_unnecessary_imports at hj
  rcases List.mem_append.mp hj with hj | hj
  · rcases dups_mem_of_scanLines (pre ++ lm :: post) initialScanState 0 j hj with h | h
    · simp [initialScanState] at h
    · rw [hr] at h
      exact absurd h.2 (by simp)
  · obtain ⟨e, he, hej⟩ := List.mem_map.mp hj
    have hkey : e.1 = ident := by
      rw [(hWF.2 e he).1, hej, hid]
    rw [hsplit] at he
    have := hfinal e he hkey
    rw [hej] at this
    omega

/-- Claim C6, counterexample.  Three files in which an import's identifier
occurs as a whole word in a line after its declaration line, yet the
scanner still yields a finding for that identifier: a DUPLICATE emitted
before the use; an occurrence inside a comment-skipped line; and an
occurrence on a later import-matching line (which never runs the usage
test). -/
theorem c6_counterexample :
    (find_unnecessary_imports
      ["import a.Foo;".toList, "import b.Foo;".toList, "x = Foo;".toList] =
      [⟨"b.Foo".toList, 1, false, RemovalReason.DUPLICATE, "import b.Foo;".toList⟩] ∧
     wordOccurs ("Foo".toList) ("x = Foo;".toList) = true) ∧
    (find_unnecessary_imports
      ["import a.Foo;".toList, "/*".toList, "Foo".toList, "*/".toList] =
      [⟨"a.Foo".toList, 0, false, RemovalReason.UNUSED, "import a.Foo;".toList⟩] ∧
     wordOccurs ("Foo".toList) ("Foo".toList) = true) ∧
    (find_unnecessary_imports
      ["import a.Foo;".toList, "import Foo.Bar;".toList] =
      [⟨"a.Foo".toList, 0, false, RemovalReason.UNUSED, "import a.Foo;".toList⟩,
       ⟨"Foo.Bar".toList, 1, false, RemovalReason.UNUSED, "import Foo.Bar;".toList⟩] ∧
     wordOccurs ("Foo".toList) ("import Foo.Bar;".toList) = true) := by
  decide

theorem c6_witness :
    ([("import a.Foo;".toList)]).length <
      (⟨"b.Foo".toList, 2, false, RemovalReason.UNUSED, "import b.Foo;".toList⟩ : JavaImport).lineno :=
  c6_use_clears_unused [("import a.Foo;".toList)] ("x = Foo;".toList)
    [("import b.Foo;".toList)] ("Foo".toList) (by decide) (by decide) (by decide)
    ⟨"b.Foo".toList, 2, false, RemovalReason.UNUSED, "import b.Foo;".toList⟩
    (by decide) (by decide) (by decide)

/-! ### Characters of a matched import statement -/

def isStmtChar (c : Char) : Bool :=
  isNameChar c || isSpaceChar c || c = ';'

theorem matchNameSemi_take_chars (s : List Char) (nm : List Char) (k : Nat)
    (h : matchNameSemi s = some (nm, k)) : ∀ c ∈ s.take k, isStmtChar c = true := by
  unfold matchNameSemi at h
  by_cases hsh : nameShape (s.takeWhile isNameChar)
  · rw [if_pos hsh] at h
    split at h
    · rename_i t' heq
      simp only [Option.some.injEq, Prod.mk.injEq] at h
      obtain ⟨hnm, hk⟩ := h
      rw [hnm] at hk
      have hsplit2 : s.dropWhile isNameChar =
          (s.dropWhile isNameChar).takeWhile isSpaceChar ++ ';' :: t' := by
        rw [← heq]
        exact (List.takeWhile_append_dropWhile isSpaceChar _).symm
      intro c hc
      have hs : s = nm ++ ((s.dropWhile isNameChar).takeWhile isSpaceChar ++ ';' :: t') := by
        rw [← hsplit2, ← hnm]
        exact (List.takeWhile_append_dropWhile isNameChar s).symm
      have hk2 : k = (nm ++ ((s.dropWhile isNameChar).takeWhile isSpaceChar ++ [';'])).length := by
        simp [List.length_append]
        omega
      rw [hs, hk2] at hc
      rw [show nm ++ ((s.dropWhile isNameChar).takeWhile isSpaceChar ++ ';' :: t') =
          (nm ++ ((s.dropWhile isNameChar).takeWhile isSpaceChar ++ [';'])) ++ t' by simp,
        List.take_left] at hc
      rcases List.mem_append.mp hc with hc | hc
      · have hn : isNameChar c = true := by
          rw [← hnm] at hc
          exact List.mem_takeWhile_imp hc
        simp [isStmtChar, hn]
      · rcases List.mem_append.mp hc with hc | hc
        · have hsp : isSpaceChar c = true := List.mem_takeWhile_imp hc
          simp [isStmtChar, hsp]
        · simp at hc
          subst hc
          decide
    · simp at h
  · rw [if_neg hsh] at h
    simp at h

theorem staticTry_take_chars (s : List Char) (sl : Nat) (nm : List Char) (k : Nat)
    (h : staticTry s = some (sl, nm, k)) : ∀ c ∈ s.take (sl + k), isStmtChar c = true := by
  unfold staticTry at h
  split at h
  · simp at h
  · rename_i s3 heq
    by_cases hws : s3.takeWhile isSpaceChar = []
    · rw [if_pos hws] at h
      simp at h
    · rw [if_neg hws] at h
      split at h
      · simp at h
      · rename_i nm0 k0 hinner
        simp only [Option.some.injEq, Prod.mk.injEq] at h
        obtain ⟨hsl, hnm, hk⟩ := h
        subst hnm
        subst hk
        have hs : s = "static".toList ++ s3 := dropLit_some _ _ _ heq
        have hs3 : s3 = s3.takeWhile isSpaceChar ++ s3.dropWhile isSpaceChar :=
          (List.takeWhile_append_dropWhile isSpaceChar s3).symm
        intro c hc
        rw [hs, ← hsl] at hc
        have h6 : ("static".toList).length = 6 := rfl
        rw [show 6 + (s3.takeWhile isSpaceChar).length + k0 =
            ("static".toList).length + ((s3.takeWhile isSpaceChar).length + k0) by
              rw [h6]; omega,
          List.take_append] at hc
        rcases List.mem_append.mp hc with hc | hc
        · have hw : isWordChar c = true := by
            have : ∀ d ∈ "static".toList, isWordChar d = true := by decide
            exact this c hc
          simp [isStmtChar, isNameChar, hw]
        · rw [show s3.take ((s3.takeWhile isSpaceChar).length + k0) =
              (s3.takeWhile isSpaceChar ++ s3.dropWhile isSpaceChar).take
                ((s3.takeWhile isSpaceChar).length + k0) by rw [← hs3],
            List.take_append] at hc
          rcases List.mem_append.mp hc with hc | hc
          · have hsp : isSpaceChar c = true := List.mem_takeWhile_imp hc
            simp [isStmtChar, hsp]
          · exact matchNameSemi_take_chars (s3.dropWhile isSpaceChar) nm0 k0 hinner c hc

theorem javaImportMatch_group0_chars (l : List Char) (m : ImportRe)
    (h : javaImportMatch l = some m) : ∀ c ∈ m.group0, isStmtChar c = true := by
  unfold javaImportMatch at h
  split at h
  · simp at h
  · rename_i s1 heq1
    by_cases hws : s1.takeWhile isSpaceChar = []
    · rw [if_pos hws] at h
      simp at h
    · rw [if_neg hws] at h
      dsimp only at h
      have hl : l = "import".toList ++ s1 := dropLit_some _ _ _ heq1
      have hs1 : s1 = s1.takeWhile isSpaceChar ++ s1.dropWhile isSpaceChar :=
        (List.takeWhile_append_dropWhile isSpaceChar s1).symm
      have keychars : ∀ (K : Nat) (c : Char),
          c ∈ l.take (6 + (s1.takeWhile isSpaceChar).length + K) →
          (∀ d ∈ (s1.dropWhile isSpaceChar).take K, isStmtChar d = true) →
          isStmtChar c = true := by
        intro K c hc hinner
        have h6 : ("import".toList).length = 6 := rfl
        rw [hl, show 6 + (s1.takeWhile isSpaceChar).length + K =
            ("import".toList).length + ((s1.takeWhile isSpaceChar).length + K) by
              rw [h6]; omega,
          List.take_append] at hc
        rcases List.mem_append.mp hc with hc | hc
        · have hw : isWordChar c = true := by
            have : ∀ d ∈ "import".toList, isWordChar d = true := by decide
            exact this c hc
          simp [isStmtChar, isNameChar, hw]
        · rw [show s1.take ((s1.takeWhile isSpaceChar).length + K) =
              (s1.takeWhile isSpaceChar ++ s1.dropWhile isSpaceChar).take
                ((s1.takeWhile isSpaceChar).length + K) by rw [← hs1],
            List.take_append] at hc
          rcases List.mem_append.mp hc with hc | hc
          · have hsp : isSpaceChar c = true := List.mem_takeWhile_imp hc
            simp [isStmtChar, hsp]
          · exact hinner c hc
      split at h
      · rename_i sl nm k hst
        simp only [Option.some.injEq] at h
        subst h
        intro c hc
        simp only at hc
        rw [show 6 + (s1.takeWhile isSpaceChar).length + sl + k =
            6 + (s1.takeWhile isSpaceChar).length + (sl + k) by omega] at hc
        exact keychars (sl + k) c hc
          (staticTry_take_chars (s1.dropWhile isSpaceChar) sl nm k hst)
      · split at h
        · simp at h
        · rename_i nm k hmn
          simp only [Option.some.injEq] at h
          subst h
          intro c hc
          simp only at hc
          exact keychars k c hc
            (matchNameSemi_take_chars (s1.dropWhile isSpaceChar) nm k hmn)

theorem javaImportMatch_group0_no_marks (l : List Char) (m : ImportRe)
    (h : javaImportMatch l = some m) : '/' ∉ m.group0 ∧ '*' ∉ m.group0 := by
  constructor
  · intro hmem
    have := javaImportMatch_group0_chars l m h '/' hmem
    exact absurd this (by decide)
  · intro hmem
    have := javaImportMatch_group0_chars l m h '*' hmem
    exact absurd this (by decide)

/-! ### Characters surviving removal, and rewriter step lemmas -/

theorem mem_removeAllGo_of_not_mem : ∀ (fuel : Nat) (pat s : List Char) (c : Char),
    s.length ≤ fuel → c ∈ s → c ∉ pat → pat ≠ [] → c ∈ removeAllGo pat fuel s := by
  intro fuel
  induction fuel with
  | zero =>
    intro pat s c hf hc _ _
    cases s with
    | nil => simp at hc
    | cons x xs => simp at hf
  | succ f ih =>
    intro pat s c hf hc hnp hpne
    cases s with
    | nil => simp at hc
    | cons c' cs =>
      rw [removeAllGo]
      by_cases hlw : leadsWith pat (c' :: cs)
      · rw [if_pos hlw]
        obtain ⟨p, ps, hpat⟩ := List.exists_cons_of_ne_nil hpne
        have hsplit : c' :: cs = pat ++ List.drop (pat.length - 1) cs := by
          have := eq_append_of_leadsWith pat (c' :: cs) hlw
          rw [hpat] at this ⊢
          simpa using this
        rw [hsplit] at hc
        rcases List.mem_append.mp hc with hc | hc
        · exact absurd hc hnp
        · apply ih pat _ c ?_ hc hnp hpne
          have : (List.drop (pat.length - 1) cs).length = cs.length - (pat.length - 1) := by
            simp
          simp at hf ⊢
          omega
      · rw [if_neg hlw]
        rcases List.mem_cons.mp hc with hc | hc
        · simp [hc]
        · have : c ∈ removeAllGo pat f cs := ih pat cs c (by simp at hf; omega) hc hnp hpne
          simp [this]

theorem mem_removeAllSub_of_not_mem : ∀ (pat s : List Char) (c : Char),
    c ∈ s → c ∉ pat → c ∈ removeAllSub pat s := by
  intro pat s c hc hnp
  cases pat with
  | nil => simpa [removeAllSub] using hc
  | cons p ps =>
    exact mem_removeAllGo_of_not_mem s.length (p :: ps) s c (Nat.le_refl _) hc hnp (by simp)

theorem line_no_marks (l pat : List Char) (h1 : '/' ∉ pat) (h2 : '*' ∉ pat)
    (hall : (removeAllSub pat l).all isSpaceChar = true) : '/' ∉ l ∧ '*' ∉ l := by
  constructor
  · intro hmem
    have := List.all_eq_true.mp hall '/' (mem_removeAllSub_of_not_mem pat l '/' hmem h1)
    exact absurd this (by decide)
  · intro hmem
    have := List.all_eq_true.mp hall '*' (mem_removeAllSub_of_not_mem pat l '*' hmem h2)
    exact absurd this (by decide)

theorem all_space_foldl : ∀ (rest : List JavaImport) (s : List Char),
    s.all isSpaceChar = true →
    (rest.foldl (fun acc j => removeAllSub j.group0 acc) s).all isSpaceChar = true := by
  intro rest
  induction rest with
  | nil => intro s h; exact h
  | cons j js ih =>
    intro s h
    show (js.foldl (fun acc j => removeAllSub j.group0 acc) (removeAllSub j.group0 s)).all
      isSpaceChar = true
    apply ih
    rw [List.all_eq_true]
    intro c hc
    exact List.all_eq_true.mp h c (mem_of_mem_removeAllSub j.group0 s c hc)

theorem grp_fold_space (grp : List JavaImport) (l : List Char) (hne : grp ≠ [])
    (h : ∀ j ∈ grp, (removeAllSub j.group0 l).all isSpaceChar = true) :
    (grp.foldl (fun acc j => removeAllSub j.group0 acc) l).all isSpaceChar = true := by
  cases grp with
  | nil => exact absurd rfl hne
  | cons x rest =>
    show (rest.foldl (fun acc j => removeAllSub j.group0 acc) (removeAllSub x.group0 l)).all
      isSpaceChar = true
    exact all_space_foldl rest (removeAllSub x.group0 l) (h x (by simp))

theorem rewriteFrom_cons_none (F : List JavaImport) (n : Nat) (l : List Char)
    (ls : List (List Char)) (h : F.filter (fun j => j.lineno = n) = []) :
    rewriteFrom F n (l :: ls) = l :: rewriteFrom F (n + 1) ls := by
  rw [rewriteFrom]
  rw [h]
  simp

theorem rewriteFrom_cons_drop (F : List JavaImport) (n : Nat) (l : List Char)
    (ls : List (List Char)) (hne : F.filter (fun j => j.lineno = n) ≠ [])
    (hsp : ∀ j ∈ F.filter (fun j => j.lineno = n),
      (removeAllSub j.group0 l).all isSpaceChar = true) :
    rewriteFrom F n (l :: ls) = rewriteFrom F (n + 1) ls := by
  rw [rewriteFrom]
  rw [if_neg]
  · simp
  · have hfold := grp_fold_space (F.filter (fun j => j.lineno = n)) l hne hsp
    simp [hfold, List.isEmpty_iff, hne]

/-! ### Key-level filter lemmas -/

theorem map_filter_key (q : List Char → Bool) (t : ImportTable) :
    (t.filter (fun e => q e.1)).map (fun e => e.1) = (t.map (fun e => e.1)).filter q := by
  induction t with
  | nil => rfl
  | cons e es ih =>
    by_cases hq : q e.1
    · simp [List.filter_cons, hq, ih]
    · simp [List.filter_cons, hq, ih]

theorem filter_swap (p q : List Char × JavaImport → Bool) (t : ImportTable) :
    (t.filter p).filter q = (t.filter q).filter p := by
  rw [List.filter_filter, List.filter_filter]
  congr 1
  funext a
  rw [Bool.and_comm]

theorem filter_self_not_mem (t : ImportTable) :
    t.filter (fun e => !(decide (e ∈ t))) = [] := by
  rw [List.filter_eq_nil_iff]
  intro a ha
  simp [ha]

/-! ### Rescan of the rewritten file -/

theorem rescan_aux (F : List JavaImport) (T : ImportTable) :
    ∀ (ls : List (List Char)) (n : Nat) (S S' : ScanState) (n' : Nat),
      T = (scanLines S n ls).table →
      WFtable S.table →
      (∀ e ∈ S.table, e.2.lineno < n) →
      S'.insideComment = S.insideComment →
      S'.table.map (fun e => e.1) =
        (S.table.filter (fun e => !(decide (e ∈ T)))).map (fun e => e.1) →
      S'.dups = [] →
      (∀ m, n ≤ m → F.filter (fun j => j.lineno = m) =
        (newDups S n ls).filter (fun j => j.lineno = m) ++
        (T.map (fun e => e.2)).filter (fun j => j.lineno = m)) →
      (∀ k, k < ls.length → ∀ j ∈ F, j.lineno = n + k →
        (removeAllSub j.group0 (ls.getD k [])).all isSpaceChar = true) →
      (scanLines S' n' (rewriteFrom F n ls)).table = [] ∧
      (scanLines S' n' (rewriteFrom F n ls)).dups = [] := by
  intro ls
  induction ls with
  | nil =>
    intro n S S' n' hT hWF hlt hins htbl hdups hF hP
    constructor
    · have h0 : S'.table.map (fun e => e.1) = [] := by
        rw [htbl, hT, show (scanLines S n []).table = S.table from rfl,
          filter_self_not_mem]
        rfl
      have h1 : S'.table = [] := by
        cases hc : S'.table with
        | nil => rfl
        | cons x xs => rw [hc] at h0; simp at h0
      exact h1
    · exact hdups
  | cons l ls' ih =>
    intro n S S' n' hT hWF hlt hins htbl hdups hF hP
    have hTstep : T = (scanLines (scanLine S n l) (n + 1) ls').table := hT
    have hP' : ∀ k, k < ls'.length → ∀ j ∈ F, j.lineno = (n + 1) + k →
        (removeAllSub j.group0 (ls'.getD k [])).all isSpaceChar = true := by
      intro k hk j hj hjl
      have := hP (k + 1) (by simp; omega) j hj (by omega)
      simpa using this
    cases hv : nextInside S.insideComment l with
    | true =>
      have hstep : scanLine S n l = ⟨S.table, true, S.dups⟩ := scanLine_skip S n l hv
      have hstep0 : scanLine ⟨S.table, S.insideComment, []⟩ n l =
          ⟨S.table, true, []⟩ := scanLine_skip ⟨S.table, S.insideComment, []⟩ n l hv
      have hnd : newDups S n (l :: ls') =
          newDups (⟨S.table, true, S.dups⟩ : ScanState) (n + 1) ls' := by
        show (scanLines (scanLine ⟨S.table, S.insideComment, []⟩ n l) (n + 1) ls').dups = _
        rw [hstep0]
        rfl
      have hFn : F.filter (fun j => j.lineno = n) = [] := by
        rw [hF n (Nat.le_refl n), hnd]
        have h1 : (newDups (⟨S.table, true, S.dups⟩ : ScanState) (n + 1) ls').filter
            (fun j => j.lineno = n) = [] := by
          rw [List.filter_eq_nil_iff]
          intro d hd
          have := (newDups_spec _ _ _ d hd).1
          simp
          omega
        have h2 : (T.map (fun e => e.2)).filter (fun j => j.lineno = n) = [] := by
          rw [List.filter_eq_nil_iff]
          intro v hv2
          obtain ⟨e, he, hev⟩ := List.mem_map.mp hv2
          rcases table_mem_of_scanLines ls' (scanLine S n l) (n + 1) e
              (by rw [← hTstep]; exact he) with hh | hh
          · rw [hstep] at hh
            have := hlt e hh
            rw [← hev]
            simp
            omega
          · rw [← hev]
            simp
            omega
        rw [h1, h2]
        rfl
      rw [rewriteFrom_cons_none F n l ls' hFn]
      have hv' : nextInside S'.insideComment l = true := by rw [hins]; exact hv
      have hstep' : scanLine S' n' l = ⟨S'.table, true, S'.dups⟩ := scanLine_skip S' n' l hv'
      rw [show scanLines S' n' (l :: rewriteFrom F (n + 1) ls') =
          scanLines (scanLine S' n' l) (n' + 1) (rewriteFrom F (n + 1) ls') from rfl,
        hstep', hdups]
      refine ih (n + 1) ⟨S.table, true, S.dups⟩ ⟨S'.table, true, []⟩ (n' + 1) ?_ ?_ ?_ ?_ ?_ ?_ ?_ ?_
      · rw [hTstep, hstep]
      · exact hWF
      · intro e he
        exact Nat.lt_succ_of_lt (hlt e he)
      · rfl
      · exact htbl
      · rfl
      · intro m hm
        rw [hF m (by omega), hnd]
      · exact hP'
    | false =>
      have hSfalse : ∀ (hmk1 : '/' ∉ l) (hmk2 : '*' ∉ l), S.insideComment = false := by
        intro hmk1 hmk2
        rw [← nextInside_of_no_mark S.insideComment l hmk1 hmk2]
        exact hv
      cases hm : javaImportMatch l with
      | some m =>
        cases hg : tblGet S.table (identifierOf m.name) with
        | some j0 =>
          have hstep : scanLine S n l = ⟨S.table, false, S.dups ++
              [⟨m.name, n, m.isStatic, RemovalReason.DUPLICATE, m.group0⟩]⟩ :=
            scanLine_dup S n l m j0 hv hm hg
          have hstep0 : scanLine ⟨S.table, S.insideComment, []⟩ n l =
              ⟨S.table, false, [] ++
                [⟨m.name, n, m.isStatic, RemovalReason.DUPLICATE, m.group0⟩]⟩ :=
            scanLine_dup ⟨S.table, S.insideComment, []⟩ n l m j0 hv hm hg
          have hnd : newDups S n (l :: ls') =
              [⟨m.name, n, m.isStatic, RemovalReason.DUPLICATE, m.group0⟩] ++
              newDups (⟨S.table, false, S.dups ++
                [⟨m.name, n, m.isStatic, RemovalReason.DUPLICATE, m.group0⟩]⟩ : ScanState)
                (n + 1) ls' := by
            show (scanLines (scanLine ⟨S.table, S.insideComment, []⟩ n l) (n + 1) ls').dups = _
            rw [hstep0]
            rw [show (⟨S.table, false, [] ++
                [⟨m.name, n, m.isStatic, RemovalReason.DUPLICATE, m.group0⟩]⟩ : ScanState) =
              ⟨S.table, false,
                [⟨m.name, n, m.isStatic, RemovalReason.DUPLICATE, m.group0⟩]⟩ by simp]
            rw [scanLines_dups_eq]
            rfl
          have hTn : (T.map (fun e => e.2)).filter (fun j => j.lineno = n) = [] := by
            rw [List.filter_eq_nil_iff]
            intro v hv2
            obtain ⟨e, he, hev⟩ := List.mem_map.mp hv2
            rcases table_mem_of_scanLines ls' (scanLine S n l) (n + 1) e
                (by rw [← hTstep]; exact he) with hh | hh
            · rw [hstep] at hh
              have := hlt e hh
              rw [← hev]
              simp
              omega
            · rw [← hev]
              simp
              omega
          have hFn : F.filter (fun j => j.lineno = n) =
              [⟨m.name, n, m.isStatic, RemovalReason.DUPLICATE, m.group0⟩] := by
            rw [hF n (Nat.le_refl n), hnd, List.filter_append, hTn]
            have h1 : ([⟨m.name, n, m.isStatic, RemovalReason.DUPLICATE, m.group0⟩] :
                List JavaImport).filter (fun j => j.lineno = n) =
                [⟨m.name, n, m.isStatic, RemovalReason.DUPLICATE, m.group0⟩] := by
              simp
            have h2 : (newDups (⟨S.table, false, S.dups ++
                [⟨m.name, n, m.isStatic, RemovalReason.DUPLICATE, m.group0⟩]⟩ : ScanState)
                (n + 1) ls').filter (fun j => j.lineno = n) = [] := by
              rw [List.filter_eq_nil_iff]
              intro d hd
              have := (newDups_spec _ _ _ d hd).1
              simp
              omega
            rw [h1, h2]
            simp
          have hdF : (⟨m.name, n, m.isStatic, RemovalReason.DUPLICATE, m.group0⟩ : JavaImport) ∈ F := by
            have : (⟨m.name, n, m.isStatic, RemovalReason.DUPLICATE, m.group0⟩ : JavaImport) ∈
                F.filter (fun j => j.lineno = n) := by
              rw [hFn]; simp
            exact (List.mem_filter.mp this).1
          have hsp0 : (removeAllSub m.group0 l).all isSpaceChar = true := by
            have := hP 0 (by simp) ⟨m.name, n, m.isStatic, RemovalReason.DUPLICATE, m.group0⟩
              hdF (by simp)
            simpa using this
          have hmarks := line_no_marks l m.group0 (javaImportMatch_group0_no_marks l m hm).1
            (javaImportMatch_group0_no_marks l m hm).2 hsp0
          have hSf : S.insideComment = false := hSfalse hmarks.1 hmarks.2
          rw [rewriteFrom_cons_drop F n l ls' (by rw [hFn]; simp) ?hsp]
          case hsp =>
            intro j hj
            rw [hFn] at hj
            simp at hj
            subst hj
            exact hsp0
          refine ih (n + 1) ⟨S.table, false, S.dups ++
              [⟨m.name, n, m.isStatic, RemovalReason.DUPLICATE, m.group0⟩]⟩ S' n' ?_ ?_ ?_ ?_ ?_ ?_ ?_ ?_
          · rw [hTstep, hstep]
          · exact hWF
          · intro e he
            exact Nat.lt_succ_of_lt (hlt e he)
          · rw [hins, hSf]
          · exact htbl
          · exact hdups
          · intro mm hmm
            rw [hF mm (by omega), hnd, List.filter_append]
            have : ([⟨m.name, n, m.isStatic, RemovalReason.DUPLICATE, m.group0⟩] :
                List JavaImport).filter (fun j => j.lineno = mm) = [] := by
              simp
              omega
            rw [this]
            simp
          · exact hP'
        | none =>
          have hstep : scanLine S n l = ⟨S.table ++ [(identifierOf m.name,
              ⟨m.name, n, m.isStatic, RemovalReason.UNUSED, m.group0⟩)], false, S.dups⟩ :=
            scanLine_ins S n l m hv hm hg
          have hstep0 : scanLine ⟨S.table, S.insideComment, []⟩ n l =
              ⟨S.table ++ [(identifierOf m.name,
                ⟨m.name, n, m.isStatic, RemovalReason.UNUSED, m.group0⟩)], false, []⟩ :=
            scanLine_ins ⟨S.table, S.insideComment, []⟩ n l m hv hm hg
          have hnd : newDups S n (l :: ls') =
              newDups (⟨S.table ++ [(identifierOf m.name,
                ⟨m.name, n, m.isStatic, RemovalReason.UNUSED, m.group0⟩)], false, S.dups⟩ :
                ScanState) (n + 1) ls' := by
            show (scanLines (scanLine ⟨S.table, S.insideComment, []⟩ n l) (n + 1) ls').dups = _
            rw [hstep0]
            rfl
          have hnd0 : (newDups (⟨S.table ++ [(identifierOf m.name,
              ⟨m.name, n, m.isStatic, RemovalReason.UNUSED, m.group0⟩)], false, S.dups⟩ :
              ScanState) (n + 1) ls').filter (fun j => j.lineno = n) = [] := by
            rw [List.filter_eq_nil_iff]
            intro d hd
            have := (newDups_spec _ _ _ d hd).1
            simp
            omega
          have hTvals : ∀ e' ∈ T, e'.2.lineno = n → e' = (identifierOf m.name,
              ⟨m.name, n, m.isStatic, RemovalReason.UNUSED, m.group0⟩) := by
            intro e' he' hl'
            rcases table_mem_of_scanLines ls' (scanLine S n l) (n + 1) e'
                (by rw [← hTstep]; exact he') with hh | hh
            · rw [hstep] at hh
              rcases List.mem_append.mp hh with hh | hh
              · exact absurd hl' (by have := hlt e' hh; omega)
              · simpa using hh
            · exact absurd hl' (by omega)
          by_cases heT : ((identifierOf m.name,
              ⟨m.name, n, m.isStatic, RemovalReason.UNUSED, m.group0⟩) :
              List Char × JavaImport) ∈ T
          · have hTn_ne : (⟨m.name, n, m.isStatic, RemovalReason.UNUSED, m.group0⟩ :
                JavaImport) ∈ (T.map (fun e => e.2)).filter (fun j => j.lineno = n) := by
              rw [List.mem_filter]
              exact ⟨List.mem_map.mpr ⟨_, heT, rfl⟩, by simp⟩
            have hjmem : (⟨m.name, n, m.isStatic, RemovalReason.UNUSED, m.group0⟩ :
                JavaImport) ∈ (newDups S n (l :: ls')).filter (fun j => j.lineno = n) ++
                (T.map (fun e => e.2)).filter (fun j => j.lineno = n) :=
              List.mem_append.mpr (Or.inr hTn_ne)
            rw [← hF n (Nat.le_refl n)] at hjmem
            have hFn_ne : F.filter (fun j => j.lineno = n) ≠ [] := by
              intro hnil
              rw [hnil] at hjmem
              simp at hjmem
            have hjvF : (⟨m.name, n, m.isStatic, RemovalReason.UNUSED, m.group0⟩ :
                JavaImport) ∈ F := (List.mem_filter.mp hjmem).1
            have hspAll : ∀ j ∈ F.filter (fun j => j.lineno = n),
                (removeAllSub j.group0 l).all isSpaceChar = true := by
              intro j hj
              have hj' := List.mem_filter.mp hj
              have hjl : j.lineno = n := by simpa using hj'.2
              have := hP 0 (by simp) j hj'.1 (by omega)
              simpa using this
            have hsp0 : (removeAllSub m.group0 l).all isSpaceChar = true := by
              have := hP 0 (by simp)
                ⟨m.name, n, m.isStatic, RemovalReason.UNUSED, m.group0⟩ hjvF (by simp)
              simpa using this
            have hmarks := line_no_marks l m.group0
              (javaImportMatch_group0_no_marks l m hm).1
              (javaImportMatch_group0_no_marks l m hm).2 hsp0
            have hSf : S.insideComment = false := hSfalse hmarks.1 hmarks.2
            rw [rewriteFrom_cons_drop F n l ls' hFn_ne hspAll]
            refine ih (n + 1) ⟨S.table ++ [(identifierOf m.name,
                ⟨m.name, n, m.isStatic, RemovalReason.UNUSED, m.group0⟩)], false, S.dups⟩ S' n' ?_ ?_ ?_ ?_ ?_ ?_ ?_ ?_
            · rw [hTstep, hstep]
            · have := WFtable_scanLine S n l hWF
              rw [hstep] at this
              exact this
            · intro e' he'
              rcases List.mem_append.mp he' with hh | hh
              · exact Nat.lt_succ_of_lt (hlt e' hh)
              · simp at hh
                subst hh
                exact Nat.lt_succ_self n
            · rw [hins, hSf]
            · dsimp only
              rw [htbl, List.filter_append]
              have h1 : ([((identifierOf m.name,
                  ⟨m.name, n, m.isStatic, RemovalReason.UNUSED, m.group0⟩) :
                  List Char × JavaImport)]).filter (fun x => !(decide (x ∈ T))) = [] := by
                simp [heT]
              rw [h1, List.append_nil]
            · exact hdups
            · intro mm hmm
              rw [hF mm (by omega), hnd]
            · exact hP'
          · have hTn : (T.map (fun x => x.2)).filter (fun j => j.lineno = n) = [] := by
              rw [List.filter_eq_nil_iff]
              intro v hv2
              obtain ⟨e', he', hev⟩ := List.mem_map.mp hv2
              simp only [decide_eq_true_eq]
              intro hvl
              apply heT
              have hvl' : e'.2.lineno = n := by rw [hev]; exact hvl
              have := hTvals e' he' hvl'
              rw [← this]
              exact he'
            have hFn : F.filter (fun j => j.lineno = n) = [] := by
              rw [hF n (Nat.le_refl n), hnd, hnd0, hTn]
              rfl
            rw [rewriteFrom_cons_none F n l ls' hFn]
            have hv' : nextInside S'.insideComment l = false := by rw [hins]; exact hv
            have hget' : tblGet S'.table (identifierOf m.name) = none := by
              rw [tblGet_eq_none_iff]
              intro hmem
              rw [htbl] at hmem
              have hsub : ((S.table.filter (fun x => !(decide (x ∈ T)))).map
                  (fun x => x.1)).Sublist (S.table.map (fun x => x.1)) :=
                List.Sublist.map _ (List.filter_sublist _)
              exact (tblGet_eq_none_iff S.table _).mp hg (hsub.mem hmem)
            have hstep' : scanLine S' n' l = ⟨S'.table ++ [(identifierOf m.name,
                ⟨m.name, n', m.isStatic, RemovalReason.UNUSED, m.group0⟩)], false, S'.dups⟩ :=
              scanLine_ins S' n' l m hv' hm hget'
            rw [show scanLines S' n' (l :: rewriteFrom F (n + 1) ls') =
                scanLines (scanLine S' n' l) (n' + 1) (rewriteFrom F (n + 1) ls') from rfl,
              hstep', hdups]
            refine ih (n + 1) ⟨S.table ++ [(identifierOf m.name,
                ⟨m.name, n, m.isStatic, RemovalReason.UNUSED, m.group0⟩)], false, S.dups⟩
              ⟨S'.table ++ [(identifierOf m.name,
                ⟨m.name, n', m.isStatic, RemovalReason.UNUSED, m.group0⟩)], false, []⟩ (n' + 1) ?_ ?_ ?_ ?_ ?_ ?_ ?_ ?_
            · rw [hTstep, hstep]
            · have := WFtable_scanLine S n l hWF
              rw [hstep] at this
              exact this
            · intro e' he'
              rcases List.mem_append.mp he' with hh | hh
              · exact Nat.lt_succ_of_lt (hlt e' hh)
              · simp at hh
                subst hh
                exact Nat.lt_succ_self n
            · rfl
            · dsimp only
              rw [List.map_append, htbl, List.filter_append]
              have h1 : ([((identifierOf m.name,
                  ⟨m.name, n, m.isStatic, RemovalReason.UNUSED, m.group0⟩) :
                  List Char × JavaImport)]).filter (fun x => !(decide (x ∈ T))) =
                  [(identifierOf m.name,
                    ⟨m.name, n, m.isStatic, RemovalReason.UNUSED, m.group0⟩)] := by
                simp [heT]
              rw [h1, List.map_append]
              rfl
            · rfl
            · intro mm hmm
              rw [hF mm (by omega), hnd]
            · exact hP'
      | none =>
        have hstep : scanLine S n l =
            ⟨S.table.filter (fun e => !wordOccurs e.1 l), false, S.dups⟩ :=
          scanLine_pru S n l hv hm
        have hstep0 : scanLine ⟨S.table, S.insideComment, []⟩ n l =
            ⟨S.table.filter (fun e => !wordOccurs e.1 l), false, []⟩ :=
          scanLine_pru ⟨S.table, S.insideComment, []⟩ n l hv hm
        have hnd : newDups S n (l :: ls') =
            newDups (⟨S.table.filter (fun e => !wordOccurs e.1 l), false, S.dups⟩ :
              ScanState) (n + 1) ls' := by
          show (scanLines (scanLine ⟨S.table, S.insideComment, []⟩ n l) (n + 1) ls').dups = _
          rw [hstep0]
          rfl
        have hFn : F.filter (fun j => j.lineno = n) = [] := by
          rw [hF n (Nat.le_refl n), hnd]
          have h1 : (newDups (⟨S.table.filter (fun e => !wordOccurs e.1 l), false, S.dups⟩ :
              ScanState) (n + 1) ls').filter (fun j => j.lineno = n) = [] := by
            rw [List.filter_eq_nil_iff]
            intro d hd
            have := (newDups_spec _ _ _ d hd).1
            simp
            omega
          have h2 : (T.map (fun e => e.2)).filter (fun j => j.lineno = n) = [] := by
            rw [List.filter_eq_nil_iff]
            intro v hv2
            obtain ⟨e, he, hev⟩ := List.mem_map.mp hv2
            rcases table_mem_of_scanLines ls' (scanLine S n l) (n + 1) e
                (by rw [← hTstep]; exact he) with hh | hh
            · rw [hstep] at hh
              have := hlt e (List.mem_filter.mp hh).1
              rw [← hev]
              simp
              omega
            · rw [← hev]
              simp
              omega
          rw [h1, h2]
          rfl
        rw [rewriteFrom_cons_none F n l ls' hFn]
        have hv' : nextInside S'.insideComment l = false := by rw [hins]; exact hv
        have hstep' : scanLine S' n' l =
            ⟨S'.table.filter (fun e => !wordOccurs e.1 l), false, S'.dups⟩ :=
          scanLine_pru S' n' l hv' hm
        rw [show scanLines S' n' (l :: rewriteFrom F (n + 1) ls') =
            scanLines (scanLine S' n' l) (n' + 1) (rewriteFrom F (n + 1) ls') from rfl,
          hstep', hdups]
        refine ih (n + 1) ⟨S.table.filter (fun e => !wordOccurs e.1 l), false, S.dups⟩
          ⟨S'.table.filter (fun e => !wordOccurs e.1 l), false, []⟩ (n' + 1) ?_ ?_ ?_ ?_ ?_ ?_ ?_ ?_
        · rw [hTstep, hstep]
        · have := WFtable_scanLine S n l hWF
          rw [hstep] at this
          exact this
        · intro e' he'
          exact Nat.lt_succ_of_lt (hlt e' (List.mem_filter.mp he').1)
        · rfl
        · dsimp only
          rw [map_filter_key (fun k => !wordOccurs k l) S'.table, htbl,
            ← map_filter_key (fun k => !wordOccurs k l)
              (S.table.filter (fun e => !(decide (e ∈ T)))),
            filter_swap]
        · rfl
        · intro mm hmm
          rw [hF mm (by omega), hnd]
        · exact hP'

/-- Claim C7, counterexample.  The one-line file `import a.B;import c.D;`
hosts two import statements, but the scanner matches only the first; the
rewriter removes the matched text `import a.B;`, leaving `import c.D;`,
which is not whitespace and is therefore kept — and re-scanning the
rewritten file yields a new UNUSED finding, so the rewritten file is not a
fixed point of scan-then-fix. -/
theorem c7_counterexample :
    find_unnecessary_imports
      (lines_with_unnecessary_imports_removed [("import a.B;import c.D;".toList)]
        (find_unnecessary_imports [("import a.B;import c.D;".toList)])) =
      [⟨"c.D".toList, 0, false, RemovalReason.UNUSED, "import c.D;".toList⟩] ∧
    find_unnecessary_imports
      (lines_with_unnecessary_imports_removed [("import a.B;import c.D;".toList)]
        (find_unnecessary_imports [("import a.B;import c.D;".toList)])) ≠ [] := by
  constructor
  · decide
  · decide

/-- Claim C7, amended.  For every file in which each finding's line is
reduced to pure whitespace by removing the matched text (so that the
rewriter drops every finding line entirely — the situation for ordinary
plain import lines), applying the Fix Rewriter with the complete findings list
and re-scanning the rewritten line sequence yields zero findings; a
finding line that retains further content after removal (such as a
second import statement) can produce new findings instead. -/
theorem c7_fix_rescan_empty :
    ∀ lines : List (List Char),
      (∀ j ∈ find_unnecessary_imports lines,
        (removeAllSub j.group0 (lines.getD j.lineno [])).all isSpaceChar = true) →
      find_unnecessary_imports
        (lines_with_unnecessary_imports_removed lines (find_unnecessary_imports lines)) = [] := by
  intro lines hproviso
  rw [rewrite_eq_from]
  have key := rescan_aux (find_unnecessary_imports lines)
    ((scanLines initialScanState 0 lines).table) lines 0 initialScanState initialScanState 0
    rfl ⟨by simp [initialScanState], by simp [initialScanState]⟩ (by simp [initialScanState])
    rfl rfl rfl ?hF ?hP
  case hF =>
    intro m _
    rw [show find_unnecessary_imports lines =
        (scanLines initialScanState 0 lines).dups ++
        (scanLines initialScanState 0 lines).table.map (fun e => e.2) from rfl,
      List.filter_append]
    rfl
  case hP =>
    intro k hk j hj hjl
    have := hproviso j hj
    rw [hjl] at this
    simpa using this
  rw [show find_unnecessary_imports
      (rewriteFrom (find_unnecessary_imports lines) 0 lines) =
      (scanLines initialScanState 0
        (rewriteFrom (find_unnecessary_imports lines) 0 lines)).dups ++
      (scanLines initialScanState 0
        (rewriteFrom (find_unnecessary_imports lines) 0 lines)).table.map (fun e => e.2)
      from rfl,
    key.1, key.2]
  rfl

theorem c7_witness :
    find_unnecessary_imports
      (lines_with_unnecessary_imports_removed [("import a.B;".toList)]
        (find_unnecessary_imports [("import a.B;".toList)])) = [] :=
  c7_fix_rescan_empty [("import a.B;".toList)] (by decide)
